import Mathlib

/-!
Device functions of `cubits/accelerate_cuda_function.h`.

A shallow embedding of the device-side helpers that generated CUDA kernels call:
bitwise rotation (`rotateL`, `rotateR`), floor-style integer division and modulus
(`idiv`, `mod`), bit reinterpretation (`reinterpret32`, `reinterpret64`) and the
typed compare-and-swap wrappers (`atomicCAS32`, `atomicCAS64`).

Machine integers are mathematical integers together with an explicit description of
their C++ type (size in bytes, signedness).  Every arithmetic operation of the source
is followed by the reduction of its result into the range of that type, so that
overflow wraps modulo `2 ^ W` exactly as the device arithmetic does.  The operators `/`
and `%` are partial: they have no result at a zero divisor, nor at the smallest value
of a signed type divided by `-1`, and `idiv` and `mod` have none where the division
they execute has none.
-/

namespace Cubits

/-! ## Integer types and their arithmetic -/

/-- An integer type of the source: `sizeof` in bytes, and whether it is signed. -/
structure IntTy where
  sizeof : Nat
  signed : Bool
deriving DecidableEq

/-- The type `int32_t`. -/
def int32_t : IntTy := ⟨4, true⟩
/-- The type `uint32_t`. -/
def uint32_t : IntTy := ⟨4, false⟩
/-- The type `int64_t`. -/
def int64_t : IntTy := ⟨8, true⟩
/-- The type `uint64_t` (also `unsigned long long int`). -/
def uint64_t : IntTy := ⟨8, false⟩
/-- The type `size_t` of the device compiler, the type of every `sizeof` expression. -/
def size_t : IntTy := ⟨8, false⟩

namespace IntTy

/-- Width of the type in bits, the `8 * sizeof(x)` of the source. -/
def bits (T : IntTy) : Nat := 8 * T.sizeof

/-- Smallest value of the type. -/
def minVal (T : IntTy) : Int := if T.signed then -(2 ^ (T.bits - 1)) else 0

/-- Largest value of the type. -/
def maxVal (T : IntTy) : Int := if T.signed then 2 ^ (T.bits - 1) - 1 else 2 ^ T.bits - 1

/-- The integer `z` is a value of the type. -/
def InRange (T : IntTy) (z : Int) : Prop := T.minVal ≤ z ∧ z ≤ T.maxVal

instance (T : IntTy) (z : Int) : Decidable (T.InRange z) := by
  unfold InRange; exact inferInstance

/-- Reduction of an exact result into the type: modulo `2 ^ W`, taken in
`[0, 2^W)` for an unsigned type and in `[-2^(W-1), 2^(W-1))` for a signed one. -/
def wrap (T : IntTy) (z : Int) : Int :=
  if T.signed then (z + 2 ^ (T.bits - 1)) % 2 ^ T.bits - 2 ^ (T.bits - 1)
  else z % 2 ^ T.bits

/-- The object representation of a value: its two's complement bit pattern, read as
a natural number below `2 ^ W`. -/
def toBits (T : IntTy) (z : Int) : Nat := (z % 2 ^ T.bits).toNat

/-- The value of the type whose bit pattern is `n`. -/
def ofBits (T : IntTy) (n : Nat) : Int := T.wrap n

/-- The operator `+` at type `T`. -/
def add (T : IntTy) (a b : Int) : Int := T.wrap (a + b)

/-- The operator `-` at type `T`. -/
def sub (T : IntTy) (a b : Int) : Int := T.wrap (a - b)

/-- The operator `*` at type `T`. -/
def mul (T : IntTy) (a b : Int) : Int := T.wrap (a * b)

/-- The operands at which the operators `/` and `%` at type `T` have no result: a
zero divisor, and at a signed type the smallest value divided by `-1`.  The language
leaves both undefined and the division instruction traps on them. -/
def divUndefined (T : IntTy) (a b : Int) : Prop :=
  b = 0 ∨ (T.signed = true ∧ a = T.minVal ∧ b = -1)

instance (T : IntTy) (a b : Int) : Decidable (T.divUndefined a b) := by
  unfold divUndefined; exact inferInstance

/-- The operator `/` at type `T`: the quotient truncated toward zero, and no result
where the division is undefined. -/
def div (T : IntTy) (a b : Int) : Option Int :=
  if T.divUndefined a b then none else some (T.wrap (Int.tdiv a b))

/-- The operator `%` at type `T`: the remainder of the truncated division, and no
result where the division is undefined. -/
def rem (T : IntTy) (a b : Int) : Option Int :=
  if T.divUndefined a b then none else some (T.wrap (Int.tmod a b))

/-- The operator `&` at type `T`, bit by bit on the two's complement patterns. -/
def band (T : IntTy) (a b : Int) : Int := T.ofBits (T.toBits a &&& T.toBits b)

/-- The operator `|` at type `T`, bit by bit on the two's complement patterns. -/
def bor (T : IntTy) (a b : Int) : Int := T.ofBits (T.toBits a ||| T.toBits b)

/-- The operator `<<` at type `T` by `k` places: bits shifted out at the top are lost. -/
def shl (T : IntTy) (a k : Int) : Int := T.wrap (a * 2 ^ k.toNat)

/-- The operator `>>` at type `T` by `k` places: the floor of `a / 2 ^ k`, which is a
logical shift for an unsigned type and an arithmetic (sign-filling) shift for a
signed one. -/
def shr (_T : IntTy) (a k : Int) : Int := a / 2 ^ k.toNat

end IntTy

/-! ## Floor division and modulus -/

/-- Source `idiv` (lines 45-49): integer division, truncated towards negative infinity.
`x > 0 && y < 0 ? (x - y - 1) / y : (x < 0 && y > 0 ? (x - y + 1) / y : x / y)`.
There is no result where the division that is executed has none. -/
def idiv (T : IntTy) (x y : Int) : Option Int :=
  if x > 0 ∧ y < 0 then T.div (T.sub (T.sub x y) 1) y
  else if x < 0 ∧ y > 0 then T.div (T.add (T.sub x y) 1) y
  else T.div x y

/-- Source `mod` (lines 54-59): integer modulus, Haskell style.
`r = x % y; x > 0 && y < 0 || x < 0 && y > 0 ? (r != 0 ? r + y : 0) : r`.
There is no result where `x % y` has none. -/
def mod (T : IntTy) (x y : Int) : Option Int :=
  (T.rem x y).bind fun r =>
    some (if (x > 0 ∧ y < 0) ∨ (x < 0 ∧ y > 0) then (if r ≠ 0 then T.add r y else 0) else r)

/-! ## Bitwise rotation -/

/-- Source `rotateL` (lines 28-33).
`i8 = i & 8 * sizeof(x) - 1`, where the mask `8 * sizeof(x) - 1` is computed at
`size_t`, `i` is converted to `size_t` for the `&`, and the result is converted
back to `int32_t`; then `i8 == 0 ? x : x << i8 | x >> 8 * sizeof(x) - i8`, the two
shifts and the `|` being those of `T`. -/
def rotateL (T : IntTy) (x i : Int) : Int :=
  let i8 := int32_t.wrap
    (size_t.band (size_t.wrap i) (size_t.sub (size_t.mul 8 T.sizeof) 1))
  if i8 = 0 then x
  else T.bor (T.shl x i8) (T.shr x (size_t.sub (size_t.mul 8 T.sizeof) (size_t.wrap i8)))

/-- Source `rotateR` (lines 35-40).
`i8 = i & 8 * sizeof(x) - 1;  i8 == 0 ? x : x >> i8 | x << 8 * sizeof(x) - i8`. -/
def rotateR (T : IntTy) (x i : Int) : Int :=
  let i8 := int32_t.wrap
    (size_t.band (size_t.wrap i) (size_t.sub (size_t.mul 8 T.sizeof) 1))
  if i8 = 0 then x
  else T.bor (T.shr x i8) (T.shl x (size_t.sub (size_t.mul 8 T.sizeof) (size_t.wrap i8)))

/-- Bit `j` of a value of type `T`: bit `j` of its two's complement pattern. -/
def bitAt (T : IntTy) (x : Int) (j : Nat) : Bool := (T.toBits x).testBit j

/-! ## Bit reinterpretation -/

/-- A `union { S a; T b; }` written through `a` and read through `b`: the value of
type `T` that has the object representation of `x`. -/
def unionCast (S T : IntTy) (x : Int) : Int := T.ofBits (S.toBits x)

/-- Source `reinterpret32` (lines 65-72), the generic template:
`union { T a; uint32_t b; } u; u.a = x; return u.b;`. -/
def reinterpret32 (T : IntTy) (x : Int) : Int := unionCast T uint32_t x

/-- Source `reinterpret64` (lines 80-87), the generic template:
`union { T a; uint64_t b; } u; u.a = x; return u.b;`. -/
def reinterpret64 (T : IntTy) (x : Int) : Int := unionCast T uint64_t x

/-- An IEEE-754 binary floating-point format: widths of the exponent and of the
fraction field.  A value of the format is represented by its encoding, a natural
number below `2 ^ (1 + expBits + manBits)`. -/
structure FloatTy where
  expBits : Nat
  manBits : Nat
deriving DecidableEq

/-- The type `float` (binary32). -/
def float : FloatTy := ⟨8, 23⟩
/-- The type `double` (binary64). -/
def double : FloatTy := ⟨11, 52⟩

namespace FloatTy

/-- Width of the format in bits. -/
def bits (F : FloatTy) : Nat := 1 + F.expBits + F.manBits

/-- The encoding `b` is an encoding of the format. -/
def Valid (F : FloatTy) (b : Nat) : Prop := b < 2 ^ F.bits

instance (F : FloatTy) (b : Nat) : Decidable (F.Valid b) := by
  unfold Valid; exact inferInstance

/-- The encoding is a NaN: exponent field all ones, fraction field nonzero. -/
def isNaN (F : FloatTy) (b : Nat) : Bool :=
  (b / 2 ^ F.manBits) % 2 ^ F.expBits == 2 ^ F.expBits - 1 && b % 2 ^ F.manBits != 0

/-- The encoding is a zero (of either sign): every bit but the sign bit is clear. -/
def isZero (F : FloatTy) (b : Nat) : Bool := b % 2 ^ (F.expBits + F.manBits) == 0

/-- The operator `==` of the floating-point type on two encodings: false as soon
as one operand is a NaN, true on two zeros of any signs, and otherwise equality of
the encodings. -/
def feq (F : FloatTy) (a b : Nat) : Bool :=
  !F.isNaN a && !F.isNaN b && (a == b || (F.isZero a && F.isZero b))

end FloatTy

/-- Modelled from the spec: the device intrinsic `__float_as_int`, the "native
float-to-bit-pattern instruction"; it returns the `int` whose bit pattern is that of
the `float` argument. -/
def float_as_int (x : Nat) : Int := int32_t.ofBits x

/-- Modelled from the spec: the device intrinsic `__double_as_longlong`, the "native
double-to-bit-pattern instruction"; it returns the `long long` whose bit pattern is
that of the `double` argument. -/
def double_as_longlong (x : Nat) : Int := int64_t.ofBits x

/-- Source `reinterpret32` specialised at `float` (lines 74-78):
`return __float_as_int(x);`, converted to the return type `uint32_t`. -/
def reinterpret32_float (x : Nat) : Int := uint32_t.wrap (float_as_int x)

/-- Source `reinterpret64` specialised at `double` (lines 90-94):
`return __double_as_longlong(x);`, converted to the return type `uint64_t`. -/
def reinterpret64_double (x : Nat) : Int := uint64_t.wrap (double_as_longlong x)

/-! ## Atomic compare-and-swap -/

/-- Modelled from the spec: the hardware `atomicCAS` on a word, "a single
indivisible read-compare-write".  From the contents of the cell, the expected and the
desired word it gives the new contents of the cell and the returned old contents. -/
def atomicCAS {α : Type} [DecidableEq α] (cell compare val : α) : α × α :=
  (if cell = compare then val else cell, cell)

/-- Source `atomicCAS32` (lines 101-108), the generic template, on a cell that
holds a payload of the integer type `T`:
`u.b = atomicCAS((uint32_t*) address, reinterpret32<T>(compare), reinterpret32<T>(val)); return u.a;`.
The cell is seen as a `uint32_t` through the pointer cast; the result is the new
payload of the cell and the returned value. -/
def atomicCAS32 (T : IntTy) (cell compare val : Int) : Int × Int :=
  let r := atomicCAS (unionCast T uint32_t cell) (reinterpret32 T compare) (reinterpret32 T val)
  (unionCast uint32_t T r.1, unionCast uint32_t T r.2)

/-- Source `atomicCAS32` specialised at `int32_t` (lines 110-114):
`return atomicCAS(address, compare, val);`. -/
def atomicCAS32_int32_t (cell compare val : Int) : Int × Int :=
  atomicCAS cell compare val

/-- Source `atomicCAS32` specialised at `uint32_t` (lines 116-120):
`return atomicCAS(address, compare, val);`. -/
def atomicCAS32_uint32_t (cell compare val : Int) : Int × Int :=
  atomicCAS cell compare val

/-- Source `atomicCAS32`, the generic template at the payload type `float`: the
cell, the expected and the desired value are `float` encodings. -/
def atomicCAS32_float (cell compare val : Nat) : Nat × Nat :=
  let r := atomicCAS (uint32_t.ofBits cell) (reinterpret32_float compare) (reinterpret32_float val)
  (uint32_t.toBits r.1, uint32_t.toBits r.2)

/-- Source `atomicCAS64` (lines 123-130), the generic template, on a cell that
holds a payload of the integer type `T`:
`u.b = atomicCAS((unsigned long long int*) address, reinterpret64<T>(compare), reinterpret64<T>(val)); return u.a;`. -/
def atomicCAS64 (T : IntTy) (cell compare val : Int) : Int × Int :=
  let r := atomicCAS (unionCast T uint64_t cell) (reinterpret64 T compare) (reinterpret64 T val)
  (unionCast uint64_t T r.1, unionCast uint64_t T r.2)

/-- Source `atomicCAS64` specialised at `unsigned long long int` (lines 132-136):
`return atomicCAS(address, compare, val);`. -/
def atomicCAS64_ulonglong (cell compare val : Int) : Int × Int :=
  atomicCAS cell compare val

/-- Source `atomicCAS64`, the generic template at the payload type `double`: the
cell, the expected and the desired value are `double` encodings. -/
def atomicCAS64_double (cell compare val : Nat) : Nat × Nat :=
  let r := atomicCAS (uint64_t.ofBits cell) (reinterpret64_double compare) (reinterpret64_double val)
  (uint64_t.toBits r.1, uint64_t.toBits r.2)

/-- The return values of a sequence of CAS calls that take effect one after another
on one cell, all with the expected value `A`, the `k`-th with the desired value
`ds[k]`; `step` is the CAS in use and `cell` the current contents. -/
def casReturns (step : Int → Int → Int → Int × Int) (A : Int) : Int → List Int → List Int
  | _, [] => []
  | cell, d :: ds => (step cell A d).2 :: casReturns step A (step cell A d).1 ds

/-- Among CAS calls on a cell that starts at `A`, all expecting `A`, taking effect in
the order `ds`: the first call is the only one to return `A`, and every other call
returns the desired value of the first. -/
def SingleWinner (step : Int → Int → Int → Int × Int) (A : Int) (ds : List Int) : Prop :=
  ∃ w rest, ds = w :: rest ∧ casReturns step A A ds = A :: List.replicate rest.length w ∧
    (casReturns step A A ds).count A = 1

/-! ## Named parts of the source used by further properties -/

namespace IntTy

/-- The unary operator `-` at type `T`. -/
def neg (T : IntTy) (a : Int) : Int := T.wrap (-a)

end IntTy

/-- The normalised shift `i8 = i & 8 * sizeof(x) - 1` of `rotateL` and `rotateR`
(source lines 31 and 38). -/
def shiftAmount (T : IntTy) (i : Int) : Int :=
  int32_t.wrap (size_t.band (size_t.wrap i) (size_t.sub (size_t.mul 8 T.sizeof) 1))

/-- The second shift count `8 * sizeof(x) - i8` of `rotateL` and `rotateR`
(source lines 32 and 39). -/
def coShiftAmount (T : IntTy) (i : Int) : Int :=
  size_t.sub (size_t.mul 8 T.sizeof) (size_t.wrap (shiftAmount T i))

/-- The guard of the `double` specialisation of `reinterpret64` (source line 89):
`#if !defined(__CUDA_ARCH__) || __CUDA_ARCH__ >= 130`.  A target configuration is
`none` when the macro is undefined and `some a` when it is defined with value `a`;
an undefined macro reads as `0` in the comparison. -/
def reinterpret64_double_compiled (arch : Option Int) : Bool :=
  !arch.isSome || decide (arch.getD 0 ≥ 130)

/-- The guard of `atomicCAS64` and of its specialisation (source line 122):
`#if !defined(__CUDA_ARCH__) || __CUDA_ARCH__ >= 120`. -/
def atomicCAS64_compiled (arch : Option Int) : Bool :=
  !arch.isSome || decide (arch.getD 0 ≥ 120)

/-- The function `atomicCAS32` and its specialisations (source lines 101-120) stand
under no architecture guard. -/
def atomicCAS32_compiled (_arch : Option Int) : Bool := true

/-- Source `idiv` (lines 45-49) read on the mathematical integers, `/` being the
truncating division: no reduction modulo `2 ^ W` takes place. -/
def idivZ (x y : Int) : Int :=
  if x > 0 ∧ y < 0 then Int.tdiv (x - y - 1) y
  else if x < 0 ∧ y > 0 then Int.tdiv (x - y + 1) y
  else Int.tdiv x y

/-- Source `mod` (lines 54-59) read on the mathematical integers, `%` being the
remainder of the truncating division. -/
def modZ (x y : Int) : Int :=
  let r := Int.tmod x y
  if (x > 0 ∧ y < 0) ∨ (x < 0 ∧ y > 0) then (if r ≠ 0 then r + y else 0) else r

/-- The quotient as the specification words it: "compute the truncating quotient,
then, if the signs of `x` and `y` differ and there is a nonzero remainder, decrement
the quotient by one". -/
def floorDivSpec (x y : Int) : Int :=
  if Int.sign x ≠ Int.sign y ∧ Int.tmod x y ≠ 0 then Int.tdiv x y - 1 else Int.tdiv x y

/-- The modulus as the specification words it: "compute the truncating remainder,
then, if the signs of `x` and `y` differ and there is a nonzero remainder, add `y` to
the remainder". -/
def floorModSpec (x y : Int) : Int :=
  if Int.sign x ≠ Int.sign y ∧ Int.tmod x y ≠ 0 then Int.tmod x y + y else Int.tmod x y

/-! ## Facts about truncated remainder -/

theorem neg_tmod_eq (a b : Int) : (-a).tmod b = -(a.tmod b) := by
  rw [Int.tmod_def, Int.tmod_def, Int.neg_tdiv]; ring

theorem tmod_abs_eq (x y : Int) : x.tmod |y| = x.tmod y := by
  rcases abs_choice y with h | h <;> rw [h]
  exact Int.tmod_neg x y

theorem tmod_bounds (x y : Int) (hy : y ≠ 0) :
    (0 ≤ x → 0 ≤ x.tmod y ∧ x.tmod y < |y|) ∧
    (x ≤ 0 → x.tmod y ≤ 0 ∧ -|y| < x.tmod y) := by
  have hpos : 0 < |y| := abs_pos.mpr hy
  refine ⟨fun hx => ⟨Int.tmod_nonneg y hx, ?_⟩, fun hx => ?_⟩
  · have := Int.tmod_lt_of_pos x hpos
    rwa [tmod_abs_eq] at this
  · have h1 : 0 ≤ (-x).tmod y := Int.tmod_nonneg y (by omega)
    have h2 := Int.tmod_lt_of_pos (-x) hpos
    rw [tmod_abs_eq, neg_tmod_eq] at h2
    rw [neg_tmod_eq] at h1
    omega

/-- A nonzero divisor, other than `-1` under the smallest value, is one at which the
division of the type is defined. -/
theorem div_defined_of_ne (T : IntTy) (x y : Int) (hy0 : y ≠ 0)
    (hdef : ¬ (x = T.minVal ∧ y = -1)) : ¬ T.divUndefined x y := by
  intro h
  rcases h with h | ⟨_, h1, h2⟩
  · exact hy0 h
  · exact hdef ⟨h1, h2⟩

/-- Where `x % y` is defined, `mod` returns the adjusted remainder. -/
theorem mod_of_defined (T : IntTy) (x y : Int) (hnd : ¬ T.divUndefined x y) :
    mod T x y = some (if (x > 0 ∧ y < 0) ∨ (x < 0 ∧ y > 0)
      then (if T.wrap (Int.tmod x y) ≠ 0 then T.add (T.wrap (Int.tmod x y)) y else 0)
      else T.wrap (Int.tmod x y)) := by
  simp only [mod, IntTy.rem, if_neg hnd, Option.some_bind]

/-- C3 as stated fails at `x = -2147483648`, `y = -1` of `int32_t` (and at the
corresponding pair of `int64_t`): the divisor is nonzero, and `x % y` has no result
there, so `mod` returns no value. -/
theorem mod_undefined_at_min :
    int32_t.InRange (-2147483648) ∧ int32_t.InRange (-1) ∧ (-1 : Int) ≠ 0 ∧
    mod int32_t (-2147483648) (-1) = none ∧
    mod int64_t (-9223372036854775808) (-1) = none := by decide

/-- C3, amended. For a signed type of 32 or 64 bits, a nonzero divisor `y` and a
dividend `x`, other than the smallest value with `y = -1`, `mod x y` returns a value
that is zero or has the sign of `y`; and `mod (-7) 2 = 1`. -/
theorem mod_sign_of_divisor (T : IntTy) (hs : T.signed = true)
    (hW : T.bits = 32 ∨ T.bits = 64) (x y : Int)
    (hx : T.InRange x) (hy : T.InRange y) (hy0 : y ≠ 0)
    (hdef : ¬ (x = T.minVal ∧ y = -1)) :
    (∃ r, mod T x y = some r ∧ (r = 0 ∨ (0 < y ∧ 0 < r) ∨ (y < 0 ∧ r < 0))) ∧
    mod int32_t (-7) 2 = some 1 := by
  refine ⟨⟨_, mod_of_defined T x y (div_defined_of_ne T x y hy0 hdef), ?_⟩, by decide⟩
  obtain ⟨hb1, hb2⟩ := tmod_bounds x y hy0
  obtain ⟨s, sg⟩ := T
  simp only at hs
  subst hs
  simp only [IntTy.bits] at hW
  have hs4 : s = 4 ∨ s = 8 := by omega
  simp only [IntTy.InRange, IntTy.minVal, IntTy.maxVal, IntTy.bits] at hx hy
  simp only [IntTy.add, IntTy.wrap, IntTy.bits]
  generalize x.tmod y = r at hb1 hb2 ⊢
  rcases hs4 with rfl | rfl <;> norm_num at hx hy ⊢ <;>
    rcases abs_cases y with ⟨ha, hsgn⟩ | ⟨ha, hsgn⟩ <;> rw [ha] at hb1 hb2 <;>
    split_ifs <;> omega

theorem and_mask32 (n : Nat) : n &&& 31 = n % 32 := by
  simpa using Nat.and_pow_two_sub_one_eq_mod n 5

theorem and_mask64 (n : Nat) : n &&& 63 = n % 64 := by
  simpa using Nat.and_pow_two_sub_one_eq_mod n 6

/-- The normalised shift `i8` of `rotateL` and `rotateR` is the non-negative residue
of `i` modulo the width. -/
theorem shiftAmount_eq (T : IntTy) (hW : T.bits = 32 ∨ T.bits = 64) (i : Int) :
    int32_t.wrap (size_t.band (size_t.wrap i) (size_t.sub (size_t.mul 8 T.sizeof) 1))
      = i % T.bits := by
  obtain ⟨s, sg⟩ := T
  simp only [IntTy.bits] at hW ⊢
  have hs4 : s = 4 ∨ s = 8 := by omega
  rcases hs4 with rfl | rfl
  · have h31 : size_t.toBits (size_t.sub (size_t.mul 8 ((4 : Nat) : Int)) 1) = 31 := by decide
    simp only [IntTy.band, h31, and_mask32]
    simp only [IntTy.ofBits, IntTy.toBits, IntTy.wrap, IntTy.bits, size_t, int32_t]
    norm_num
    omega
  · have h63 : size_t.toBits (size_t.sub (size_t.mul 8 ((8 : Nat) : Int)) 1) = 63 := by decide
    simp only [IntTy.band, h63, and_mask64]
    simp only [IntTy.ofBits, IntTy.toBits, IntTy.wrap, IntTy.bits, size_t, int32_t]
    norm_num
    omega

/-- The second shift count `8 * sizeof(x) - i8` of the rotations is the width minus
the normalised shift. -/
theorem shiftCount_eq (T : IntTy) (hW : T.bits = 32 ∨ T.bits = 64) (i : Int) :
    size_t.sub (size_t.mul 8 T.sizeof) (size_t.wrap (i % T.bits)) = T.bits - i % T.bits := by
  obtain ⟨s, sg⟩ := T
  simp only [IntTy.bits] at hW ⊢
  have hs4 : s = 4 ∨ s = 8 := by omega
  rcases hs4 with rfl | rfl <;>
    simp only [IntTy.sub, IntTy.mul, IntTy.wrap, IntTy.bits, size_t] <;> norm_num <;> omega

theorem rotateL_eq (T : IntTy) (hW : T.bits = 32 ∨ T.bits = 64) (x i : Int) :
    rotateL T x i = if i % T.bits = 0 then x
      else T.bor (T.shl x (i % T.bits)) (T.shr x (T.bits - i % T.bits)) := by
  simp only [rotateL, shiftAmount_eq T hW, shiftCount_eq T hW]

theorem rotateR_eq (T : IntTy) (hW : T.bits = 32 ∨ T.bits = 64) (x i : Int) :
    rotateR T x i = if i % T.bits = 0 then x
      else T.bor (T.shr x (i % T.bits)) (T.shl x (T.bits - i % T.bits)) := by
  simp only [rotateR, shiftAmount_eq T hW, shiftCount_eq T hW]

/-- C6. The rotations depend on the shift only through its non-negative residue
modulo the width, and a shift of zero is the identity. -/
theorem rotate_shift_mod_width (T : IntTy) (hW : T.bits = 32 ∨ T.bits = 64) (x i : Int) :
    rotateL T x i = rotateL T x (i % T.bits) ∧ rotateL T x 0 = x ∧
    rotateR T x i = rotateR T x (i % T.bits) ∧ rotateR T x 0 = x := by
  have hmm : i % (T.bits : Int) % T.bits = i % T.bits := Int.emod_emod_of_dvd i (dvd_refl _)
  refine ⟨?_, ?_, ?_, ?_⟩
  · rw [rotateL_eq T hW, rotateL_eq T hW, hmm]
  · rw [rotateL_eq T hW]; simp
  · rw [rotateR_eq T hW, rotateR_eq T hW, hmm]
  · rw [rotateR_eq T hW]; simp

theorem toBits_natCast (T : IntTy) (m : Nat) : T.toBits (m : Int) = m % 2 ^ T.bits := by
  unfold IntTy.toBits
  have h : ((m : Int) % 2 ^ T.bits) = ((m % 2 ^ T.bits : Nat) : Int) := by push_cast; rfl
  rw [h, Int.toNat_natCast]

theorem ofBits_unsigned (s : Nat) (m : Nat) :
    (IntTy.mk s false).ofBits m = ((m % 2 ^ (8 * s) : Nat) : Int) := by
  simp [IntTy.ofBits, IntTy.wrap, IntTy.bits]

theorem shl_unsigned (s n k : Nat) :
    (IntTy.mk s false).shl (n : Int) (k : Int) = (((n <<< k) % 2 ^ (8 * s) : Nat) : Int) := by
  simp [IntTy.shl, IntTy.wrap, IntTy.bits, Nat.shiftLeft_eq]

theorem shr_unsigned (s n k : Nat) :
    (IntTy.mk s false).shr (n : Int) (k : Int) = ((n >>> k : Nat) : Int) := by
  simp [IntTy.shr, Nat.shiftRight_eq_div_pow]

theorem bitAt_bor_unsigned (s a b j : Nat) (hj : j < 8 * s) :
    bitAt (IntTy.mk s false) ((IntTy.mk s false).bor (a : Int) (b : Int)) j
      = ((a.testBit j) || (b.testBit j)) := by
  simp only [bitAt, IntTy.bor, ofBits_unsigned, toBits_natCast, IntTy.bits,
    Nat.testBit_mod_two_pow, Nat.testBit_or]
  simp [hj]

theorem bitAt_rotl_body (s n k j : Nat) (hn : n < 2 ^ (8 * s))
    (hk : k < 8 * s) (hj : j < 8 * s) :
    bitAt (IntTy.mk s false)
      ((IntTy.mk s false).bor ((IntTy.mk s false).shl (n : Int) (k : Int))
        ((IntTy.mk s false).shr (n : Int) ((8 * s - k : Nat) : Int))) j
      = n.testBit (if k ≤ j then j - k else j + 8 * s - k) := by
  rw [shl_unsigned, shr_unsigned, bitAt_bor_unsigned _ _ _ _ hj]
  simp only [Nat.testBit_mod_two_pow, Nat.testBit_shiftLeft, Nat.testBit_shiftRight]
  by_cases hkj : k ≤ j
  · have hhi : n.testBit (8 * s - k + j) = false :=
      Nat.testBit_lt_two_pow (lt_of_lt_of_le hn (Nat.pow_le_pow_right (by norm_num) (by omega)))
    simp [hkj, hj, hhi]
  · have he : 8 * s - k + j = j + 8 * s - k := by omega
    simp [hkj, he]

theorem bitAt_rotr_body (s n k j : Nat) (hn : n < 2 ^ (8 * s))
    (hk : k < 8 * s) (hj : j < 8 * s) :
    bitAt (IntTy.mk s false)
      ((IntTy.mk s false).bor ((IntTy.mk s false).shr (n : Int) (k : Int))
        ((IntTy.mk s false).shl (n : Int) ((8 * s - k : Nat) : Int))) j
      = n.testBit (if j + k < 8 * s then j + k else j + k - 8 * s) := by
  rw [shl_unsigned, shr_unsigned, bitAt_bor_unsigned _ _ _ _ hj]
  simp only [Nat.testBit_mod_two_pow, Nat.testBit_shiftLeft, Nat.testBit_shiftRight]
  by_cases hkj : j + k < 8 * s
  · have hlo : ¬ (j ≥ 8 * s - k) := by omega
    have he : k + j = j + k := Nat.add_comm k j
    simp [hkj, hlo, he]
  · have hhi : n.testBit (k + j) = false :=
      Nat.testBit_lt_two_pow (lt_of_lt_of_le hn (Nat.pow_le_pow_right (by norm_num) (by omega)))
    have hge : j ≥ 8 * s - k := by omega
    have he : j - (8 * s - k) = j + k - 8 * s := by omega
    simp [hkj, hj, hhi, hge, he]

theorem rotate_bits_aux (s : Nat) (hs : s = 4 ∨ s = 8) (n : Nat) (hn : n < 2 ^ (8 * s))
    (i : Int) (j : Nat) (hj : j < 8 * s) :
    bitAt (IntTy.mk s false) (rotateL (IntTy.mk s false) (n : Int) i) j
      = n.testBit (((j : Int) - i) % ((8 * s : Nat) : Int)).toNat ∧
    bitAt (IntTy.mk s false) (rotateR (IntTy.mk s false) (n : Int) i) j
      = n.testBit (((j : Int) + i) % ((8 * s : Nat) : Int)).toNat := by
  have hW : (IntTy.mk s false).bits = 32 ∨ (IntTy.mk s false).bits = 64 := by
    simp only [IntTy.bits]; omega
  rw [rotateL_eq _ hW, rotateR_eq _ hW]
  simp only [IntTy.bits]
  have hbit : bitAt (IntTy.mk s false) (n : Int) j = n.testBit j := by
    simp only [bitAt, toBits_natCast, IntTy.bits, Nat.mod_eq_of_lt hn]
  obtain ⟨k, hk⟩ : ∃ k : Nat, i % ((8 * s : Nat) : Int) = (k : Int) :=
    ⟨(i % ((8 * s : Nat) : Int)).toNat, by rcases hs with rfl | rfl <;> omega⟩
  have hklt : k < 8 * s := by rcases hs with rfl | rfl <;> omega
  have hsub : ((8 * s : Nat) : Int) - (k : Int) = ((8 * s - k : Nat) : Int) := by omega
  rw [hk, hsub]
  by_cases hk0 : k = 0
  · subst hk0
    simp only [Nat.cast_zero, if_true, hbit]
    have e1 : (((j : Int) - i) % ((8 * s : Nat) : Int)).toNat = j := by
      rcases hs with rfl | rfl <;> omega
    have e2 : (((j : Int) + i) % ((8 * s : Nat) : Int)).toNat = j := by
      rcases hs with rfl | rfl <;> omega
    rw [e1, e2]
    exact ⟨rfl, rfl⟩
  · have hkne : ¬ ((k : Int) = 0) := by omega
    simp only [if_neg hkne]
    rw [bitAt_rotl_body s n k j hn hklt hj, bitAt_rotr_body s n k j hn hklt hj]
    constructor
    · congr 1
      rcases hs with rfl | rfl <;> split_ifs <;> omega
    · congr 1
      rcases hs with rfl | rfl <;> split_ifs <;> omega

/-- C5. On an unsigned type of 32 or 64 bits both rotations are exact circular
rotations: bit `j` of `rotateL x i` is bit `(j - i) mod W` of `x`, and bit `j` of
`rotateR x i` is bit `(j + i) mod W` of `x`. -/
theorem rotate_bits_unsigned (T : IntTy) (hu : T.signed = false)
    (hW : T.bits = 32 ∨ T.bits = 64) (x i : Int) (hx : T.InRange x) (j : Nat)
    (hj : j < T.bits) :
    bitAt T (rotateL T x i) j = bitAt T x (((j : Int) - i) % T.bits).toNat ∧
    bitAt T (rotateR T x i) j = bitAt T x (((j : Int) + i) % T.bits).toNat := by
  obtain ⟨s, sg⟩ := T
  simp only at hu
  subst hu
  simp only [IntTy.bits] at hW hj ⊢
  have hs : s = 4 ∨ s = 8 := by omega
  simp only [IntTy.InRange, IntTy.minVal, IntTy.maxVal, IntTy.bits] at hx
  simp only [Bool.false_eq_true, if_false] at hx
  obtain ⟨n, rfl⟩ : ∃ n : Nat, x = (n : Int) := ⟨x.toNat, by omega⟩
  have hn : n < 2 ^ (8 * s) := by
    have h2 : (n : Int) < 2 ^ (8 * s) := by omega
    exact_mod_cast h2
  have hbit : ∀ m : Nat, bitAt (IntTy.mk s false) (n : Int) m = n.testBit m := by
    intro m
    simp only [bitAt, toBits_natCast, IntTy.bits, Nat.mod_eq_of_lt hn]
  rw [hbit, hbit]
  exact rotate_bits_aux s hs n hn i j hj

/-- Reading back through the union what `reinterpret32` produced gives the payload
again, and two payloads with the same reinterpretation are equal. -/
theorem unionCast32_roundtrip (T : IntTy) (hW : T.bits = 32) (a : Int) (ha : T.InRange a) :
    unionCast uint32_t T (unionCast T uint32_t a) = a := by
  obtain ⟨s, sg⟩ := T
  simp only [IntTy.bits] at hW
  have hs : s = 4 := by omega
  subst hs
  simp only [IntTy.InRange, IntTy.minVal, IntTy.maxVal, IntTy.bits] at ha
  simp only [unionCast, IntTy.ofBits, IntTy.toBits, IntTy.wrap, IntTy.bits, uint32_t]
  cases sg <;> norm_num at ha ⊢ <;> omega

theorem unionCast64_roundtrip (T : IntTy) (hW : T.bits = 64) (a : Int) (ha : T.InRange a) :
    unionCast uint64_t T (unionCast T uint64_t a) = a := by
  obtain ⟨s, sg⟩ := T
  simp only [IntTy.bits] at hW
  have hs : s = 8 := by omega
  subst hs
  simp only [IntTy.InRange, IntTy.minVal, IntTy.maxVal, IntTy.bits] at ha
  simp only [unionCast, IntTy.ofBits, IntTy.toBits, IntTy.wrap, IntTy.bits, uint64_t]
  cases sg <;> norm_num at ha ⊢ <;> omega

theorem unionCast32_inj (T : IntTy) (hW : T.bits = 32) (a b : Int) (ha : T.InRange a)
    (hb : T.InRange b) : unionCast T uint32_t a = unionCast T uint32_t b ↔ a = b := by
  constructor
  · intro h
    rw [← unionCast32_roundtrip T hW a ha, ← unionCast32_roundtrip T hW b hb, h]
  · intro h; rw [h]

theorem unionCast64_inj (T : IntTy) (hW : T.bits = 64) (a b : Int) (ha : T.InRange a)
    (hb : T.InRange b) : unionCast T uint64_t a = unionCast T uint64_t b ↔ a = b := by
  constructor
  · intro h
    rw [← unionCast64_roundtrip T hW a ha, ← unionCast64_roundtrip T hW b hb, h]
  · intro h; rw [h]

/-- The generic `atomicCAS32` on an integer payload is the CAS step on payloads. -/
theorem atomicCAS32_step (T : IntTy) (hW : T.bits = 32) (m e d : Int) (hm : T.InRange m)
    (he : T.InRange e) (hd : T.InRange d) :
    atomicCAS32 T m e d = (if m = e then d else m, m) := by
  simp only [atomicCAS32, atomicCAS, reinterpret32, unionCast32_inj T hW m e hm he]
  by_cases h : m = e
  · simp only [if_pos h, unionCast32_roundtrip T hW d hd, unionCast32_roundtrip T hW m hm]
  · simp only [if_neg h, unionCast32_roundtrip T hW m hm]

/-- The generic `atomicCAS64` on an integer payload is the CAS step on payloads. -/
theorem atomicCAS64_step (T : IntTy) (hW : T.bits = 64) (m e d : Int) (hm : T.InRange m)
    (he : T.InRange e) (hd : T.InRange d) :
    atomicCAS64 T m e d = (if m = e then d else m, m) := by
  simp only [atomicCAS64, atomicCAS, reinterpret64, unionCast64_inj T hW m e hm he]
  by_cases h : m = e
  · simp only [if_pos h, unionCast64_roundtrip T hW d hd, unionCast64_roundtrip T hW m hm]
  · simp only [if_neg h, unionCast64_roundtrip T hW m hm]

/-- C7. Through the generic templates a CAS on an integer payload returns the stored
value `m`, and leaves `d` in the cell when `m = e` and `m` otherwise. -/
theorem atomicCAS_generic_contract (T : IntTy) (m e d : Int) (hm : T.InRange m)
    (he : T.InRange e) (hd : T.InRange d) :
    (T.bits = 32 → atomicCAS32 T m e d = (if m = e then d else m, m)) ∧
    (T.bits = 64 → atomicCAS64 T m e d = (if m = e then d else m, m)) :=
  ⟨fun hW => atomicCAS32_step T hW m e d hm he hd,
   fun hW => atomicCAS64_step T hW m e d hm he hd⟩

/-- C7 at `int64_t` through `atomicCAS64` and at `int32_t` through `atomicCAS32`. -/
theorem atomicCAS_generic_contract_witness :
    atomicCAS64 int64_t (-5) (-5) 7 = (7, -5) ∧ atomicCAS64 int64_t (-5) 3 7 = (-5, -5) ∧
    atomicCAS32 int32_t (-5) (-5) 7 = (7, -5) :=
  ⟨(atomicCAS_generic_contract int64_t (-5) (-5) 7 (by decide) (by decide) (by decide)).2
      (by decide),
   (atomicCAS_generic_contract int64_t (-5) 3 7 (by decide) (by decide) (by decide)).2
      (by decide),
   (atomicCAS_generic_contract int32_t (-5) (-5) 7 (by decide) (by decide) (by decide)).1
      (by decide)⟩

/-- C8. From a cell holding `A`, `atomicCAS32(addr, A, B)` returns `A` and leaves `B`;
the following `atomicCAS32(addr, A, C)`, whose expectation is stale because `B ≠ A`,
returns `B` and leaves `B`.  This holds for the generic template at every 32-bit
integer type, and for the specialisation when the type is `int32_t` or `uint32_t`. -/
theorem atomicCAS32_stale_expectation (T : IntTy) (hW : T.bits = 32) (A B C : Int)
    (hA : T.InRange A) (hB : T.InRange B) (hC : T.InRange C) (hBA : B ≠ A) :
    (atomicCAS32 T A A B = (B, A) ∧ atomicCAS32 T B A C = (B, B)) ∧
    (T = int32_t →
      atomicCAS32_int32_t A A B = (B, A) ∧ atomicCAS32_int32_t B A C = (B, B)) ∧
    (T = uint32_t →
      atomicCAS32_uint32_t A A B = (B, A) ∧ atomicCAS32_uint32_t B A C = (B, B)) := by
  refine ⟨⟨?_, ?_⟩, fun _ => ⟨?_, ?_⟩, fun _ => ⟨?_, ?_⟩⟩
  · rw [atomicCAS32_step T hW A A B hA hA hB, if_pos rfl]
  · rw [atomicCAS32_step T hW B A C hB hA hC, if_neg hBA]
  · simp [atomicCAS32_int32_t, atomicCAS]
  · simp [atomicCAS32_int32_t, atomicCAS, hBA]
  · simp [atomicCAS32_uint32_t, atomicCAS]
  · simp [atomicCAS32_uint32_t, atomicCAS, hBA]

/-- C8 at `int32_t` with `A = -1`, `B = 2`, `C = 3`. -/
theorem atomicCAS32_stale_expectation_witness :
    (atomicCAS32 int32_t (-1) (-1) 2 = (2, -1) ∧ atomicCAS32 int32_t 2 (-1) 3 = (2, 2)) ∧
    (atomicCAS32_int32_t (-1) (-1) 2 = (2, -1) ∧ atomicCAS32_int32_t 2 (-1) 3 = (2, 2)) :=
  have h := atomicCAS32_stale_expectation int32_t (by decide) (-1) 2 3 (by decide)
    (by decide) (by decide) (by decide)
  ⟨h.1, h.2.1 rfl⟩

/-- A CAS whose expectation `A` differs from the contents `c` of the cell fails, so a
whole sequence of such calls returns `c` every time. -/
theorem casReturns_of_ne (step : Int → Int → Int → Int × Int) (P : Int → Prop)
    (hstep : ∀ m e d, P m → P e → P d → step m e d = (if m = e then d else m, m))
    (A c : Int) (hA : P A) (hc : P c) (hcA : c ≠ A) (ds : List Int)
    (hds : ∀ d ∈ ds, P d) : casReturns step A c ds = List.replicate ds.length c := by
  induction ds with
  | nil => rfl
  | cons d ds ih =>
    have hd : P d := hds d (List.mem_cons_self d ds)
    have hrest : ∀ d' ∈ ds, P d' := fun d' h => hds d' (List.mem_cons_of_mem d h)
    simp only [casReturns, hstep c A d hc hA hd, if_neg hcA, List.length_cons,
      List.replicate_succ, ih hrest]

theorem singleWinner_of_step (step : Int → Int → Int → Int × Int) (P : Int → Prop)
    (hstep : ∀ m e d, P m → P e → P d → step m e d = (if m = e then d else m, m))
    (A : Int) (hA : P A) (ds : List Int) (hne : ds ≠ [])
    (hP : ∀ d ∈ ds, P d) (hdA : 2 ≤ ds.length → ∀ d ∈ ds, d ≠ A) :
    SingleWinner step A ds := by
  cases ds with
  | nil => exact absurd rfl hne
  | cons w rest =>
    have hw : P w := hP w (List.mem_cons_self w rest)
    have hrest : ∀ d ∈ rest, P d := fun d h => hP d (List.mem_cons_of_mem w h)
    cases rest with
    | nil =>
      refine ⟨w, [], rfl, ?_, ?_⟩ <;> simp [casReturns, hstep A A w hA hA hw]
    | cons v rest =>
      have hwA : w ≠ A := hdA (by simp) w (List.mem_cons_self w _)
      have hret : casReturns step A A (w :: v :: rest)
          = A :: List.replicate (v :: rest).length w := by
        rw [casReturns, hstep A A w hA hA hw, if_pos rfl,
          casReturns_of_ne step P hstep A w hA hw hwA (v :: rest) hrest]
      refine ⟨w, v :: rest, rfl, hret, ?_⟩
      rw [hret, List.count_cons_self, List.count_replicate]
      simp [hwA]

/-- C9 as stated fails: when the first call to take effect desires `A` itself, the cell
still holds `A` afterwards and the second call returns `A` as well. -/
theorem cas_two_winners :
    int32_t.InRange 0 ∧ int32_t.InRange 5 ∧
    casReturns (atomicCAS32 int32_t) 0 0 [0, 5] = [0, 0] ∧
    casReturns atomicCAS32_int32_t 0 0 [0, 5] = [0, 0] ∧
    (casReturns (atomicCAS32 int32_t) 0 0 [0, 5]).count 0 ≠ 1 := by decide

/-- C9, amended. When no desired value equals the initial value `A` (a restriction that
matters only for `N ≥ 2`), then for every order in which the `N ≥ 1` calls
`atomicCAS32(addr, A, d_k)` take effect exactly one call returns `A`, the first, and
every other call returns the desired value of that winner. -/
theorem cas_exactly_one_winner (T : IntTy) (hW : T.bits = 32) (A : Int) (hA : T.InRange A)
    (ds : List Int) (hN : 1 ≤ ds.length) (hr : ∀ d ∈ ds, T.InRange d)
    (hdA : 2 ≤ ds.length → ∀ d ∈ ds, d ≠ A) (order : List Int) (hperm : order.Perm ds) :
    SingleWinner (atomicCAS32 T) A order ∧
    (T = int32_t → SingleWinner atomicCAS32_int32_t A order) ∧
    (T = uint32_t → SingleWinner atomicCAS32_uint32_t A order) := by
  have hlen : order.length = ds.length := hperm.length_eq
  have hne : order ≠ [] := by
    intro h
    rw [h] at hlen
    simp at hlen
    omega
  have hr' : ∀ d ∈ order, T.InRange d := fun d h => hr d (hperm.mem_iff.mp h)
  have hdA' : 2 ≤ order.length → ∀ d ∈ order, d ≠ A :=
    fun h2 d h => hdA (hlen ▸ h2) d (hperm.mem_iff.mp h)
  refine ⟨?_, fun _ => ?_, fun _ => ?_⟩
  · exact singleWinner_of_step _ T.InRange (atomicCAS32_step T hW) A hA order hne hr' hdA'
  · exact singleWinner_of_step _ (fun _ => True)
      (fun m e d _ _ _ => by simp [atomicCAS32_int32_t, atomicCAS]) A trivial order hne
      (fun _ _ => trivial) hdA'
  · exact singleWinner_of_step _ (fun _ => True)
      (fun m e d _ _ _ => by simp [atomicCAS32_uint32_t, atomicCAS]) A trivial order hne
      (fun _ _ => trivial) hdA'

/-- C9, amended, at `int32_t` with `A = 0` and three calls taking effect in the order
`7, 5, -3`. -/
theorem cas_exactly_one_winner_witness :
    SingleWinner (atomicCAS32 int32_t) 0 [7, 5, -3] ∧
    SingleWinner atomicCAS32_int32_t 0 [7, 5, -3] :=
  have h := cas_exactly_one_winner int32_t (by decide) 0 (by decide) [5, -3, 7] (by decide)
    (by decide) (by decide) [7, 5, -3] (by decide)
  ⟨h.1, h.2.1 rfl⟩


theorem float_valid_iff (x : Nat) : float.Valid x ↔ x < 4294967296 := by
  simp only [FloatTy.Valid, FloatTy.bits, float]
  norm_num

theorem double_valid_iff (x : Nat) : double.Valid x ↔ x < 18446744073709551616 := by
  simp only [FloatTy.Valid, FloatTy.bits, double]
  norm_num

theorem two_pow_32 : (2 : Int) ^ (8 * 4) = 4294967296 := by norm_num
theorem two_pow_31 : (2 : Int) ^ (8 * 4 - 1) = 2147483648 := by norm_num
theorem two_pow_64 : (2 : Int) ^ (8 * 8) = 18446744073709551616 := by norm_num
theorem two_pow_63 : (2 : Int) ^ (8 * 8 - 1) = 9223372036854775808 := by norm_num

theorem reinterpret32_float_eq (x : Nat) (hx : float.Valid x) :
    reinterpret32_float x = (x : Int) := by
  rw [float_valid_iff] at hx
  simp only [reinterpret32_float, float_as_int, IntTy.ofBits, IntTy.wrap, IntTy.bits,
    uint32_t, int32_t, Bool.false_eq_true, if_false, if_true, two_pow_32, two_pow_31]
  omega

theorem reinterpret64_double_eq (x : Nat) (hx : double.Valid x) :
    reinterpret64_double x = (x : Int) := by
  rw [double_valid_iff] at hx
  simp only [reinterpret64_double, double_as_longlong, IntTy.ofBits, IntTy.wrap, IntTy.bits,
    uint64_t, int64_t, Bool.false_eq_true, if_false, if_true, two_pow_64, two_pow_63]
  omega

theorem ofBits_uint32_of_valid (n : Nat) (hn : float.Valid n) :
    uint32_t.ofBits n = (n : Int) := by
  rw [float_valid_iff] at hn
  simp only [IntTy.ofBits, IntTy.wrap, IntTy.bits, uint32_t, Bool.false_eq_true, if_false,
    two_pow_32]
  omega

theorem toBits_uint32_of_valid (n : Nat) (hn : float.Valid n) :
    uint32_t.toBits (n : Int) = n := by
  rw [float_valid_iff] at hn
  simp only [IntTy.toBits, IntTy.bits, uint32_t, two_pow_32]
  omega

theorem ofBits_uint64_of_valid (n : Nat) (hn : double.Valid n) :
    uint64_t.ofBits n = (n : Int) := by
  rw [double_valid_iff] at hn
  simp only [IntTy.ofBits, IntTy.wrap, IntTy.bits, uint64_t, Bool.false_eq_true, if_false,
    two_pow_64]
  omega

theorem toBits_uint64_of_valid (n : Nat) (hn : double.Valid n) :
    uint64_t.toBits (n : Int) = n := by
  rw [double_valid_iff] at hn
  simp only [IntTy.toBits, IntTy.bits, uint64_t, two_pow_64]
  omega

/-- The generic `atomicCAS32` at `float` is the CAS step on encodings. -/
theorem atomicCAS32_float_step (m e d : Nat) (hm : float.Valid m) (he : float.Valid e)
    (hd : float.Valid d) : atomicCAS32_float m e d = (if m = e then d else m, m) := by
  simp only [atomicCAS32_float, atomicCAS, reinterpret32_float_eq e he,
    reinterpret32_float_eq d hd, ofBits_uint32_of_valid m hm, Nat.cast_inj]
  by_cases h : m = e
  · simp only [if_pos h, toBits_uint32_of_valid d hd, toBits_uint32_of_valid m hm]
  · simp only [if_neg h, toBits_uint32_of_valid m hm]

/-- The generic `atomicCAS64` at `double` is the CAS step on encodings. -/
theorem atomicCAS64_double_step (m e d : Nat) (hm : double.Valid m) (he : double.Valid e)
    (hd : double.Valid d) : atomicCAS64_double m e d = (if m = e then d else m, m) := by
  simp only [atomicCAS64_double, atomicCAS, reinterpret64_double_eq e he,
    reinterpret64_double_eq d hd, ofBits_uint64_of_valid m hm, Nat.cast_inj]
  by_cases h : m = e
  · simp only [if_pos h, toBits_uint64_of_valid d hd, toBits_uint64_of_valid m hm]
  · simp only [if_neg h, toBits_uint64_of_valid m hm]

/-- C1, at the failing input `x = 2147483647`, `y = -2` of `int32_t`: the intermediate
`x - y - 1` overflows and wraps, and `idiv` returns `1073741824` where the floor of the
exact quotient is `-1073741824`; the example of the claim, `idiv (-7) 2 = -4`, holds. -/
theorem idiv_wraps_on_overflow :
    int32_t.InRange 2147483647 ∧ int32_t.InRange (-2) ∧
    idiv int32_t 2147483647 (-2) = some 1073741824 ∧
    ⌊(2147483647 : ℚ) / (-2 : ℚ)⌋ = -1073741824 ∧
    idiv int32_t (-7) 2 = some (-4) := by
  refine ⟨by decide, by decide, by decide, ?_, by decide⟩
  rw [Int.floor_eq_iff]
  norm_num

/-- C2, at the failing input `x = 2147483647`, `y = -3` of `int32_t`: computed at 32
bits, `idiv x y * y + mod x y` is `-2147483648`, not `x`. -/
theorem idiv_mod_identity_fails :
    int32_t.InRange 2147483647 ∧ int32_t.InRange (-3) ∧
    idiv int32_t 2147483647 (-3) = some 715827882 ∧
    mod int32_t 2147483647 (-3) = some (-2) ∧
    int32_t.add (int32_t.mul 715827882 (-3)) (-2) = -2147483648 ∧
    ((idiv int32_t 2147483647 (-3)).bind fun q =>
      (mod int32_t 2147483647 (-3)).bind fun r =>
        some (int32_t.add (int32_t.mul q (-3)) r)) = some (-2147483648) := by decide

/-- C4, at the failing input `x = -2`, `i = 1` of `int32_t`: the arithmetic right shift
fills `rotateL x i` with sign bits, giving `-1`, and rotating back gives `-1`, not
`-2`; the same happens at `int64_t`. -/
theorem rotate_signed_not_inverse :
    int32_t.InRange (-2) ∧ int32_t.InRange 1 ∧
    rotateL int32_t (-2) 1 = -1 ∧ rotateR int32_t (rotateL int32_t (-2) 1) 1 = -1 ∧
    rotateR int64_t (rotateL int64_t (-2) 1) 1 = -1 := by decide

/-- C10 as stated fails at `float`: `+0.0` and `-0.0` are equal as floats and have
different reinterpretations, so a cell holding `+0.0` is not swapped when `-0.0` is
expected; a NaN is not equal to itself and has one reinterpretation, so a cell holding
it is swapped when the same NaN is expected. -/
theorem float_equality_differs_from_bits :
    float.Valid 0 ∧ float.Valid 2147483648 ∧ float.feq 0 2147483648 = true ∧
    reinterpret32_float 0 ≠ reinterpret32_float 2147483648 ∧
    atomicCAS32_float 0 2147483648 1065353216 = (0, 0) ∧
    float.Valid 2143289344 ∧ float.feq 2143289344 2143289344 = false ∧
    reinterpret32_float 2143289344 = reinterpret32_float 2143289344 ∧
    atomicCAS32_float 2143289344 2143289344 0 = (0, 2143289344) := by decide

/-- C10, amended. For an integer payload type of 32 or 64 bits two payloads are equal
exactly when their reinterpretations are equal, and the generic CAS swaps exactly when
the stored payload equals the expected one.  For `float` and `double` the
reinterpretations are equal exactly when the two encodings are the same bit pattern,
and the CAS swaps exactly then. -/
theorem reinterpret_eq_iff_same_payload (T : IntTy) (a b d : Int) (ha : T.InRange a)
    (hb : T.InRange b) (hd : T.InRange d) (fa fb fd : Nat) :
    (T.bits = 32 → (a = b ↔ reinterpret32 T a = reinterpret32 T b) ∧
      (atomicCAS32 T a b d).1 = (if a = b then d else a)) ∧
    (T.bits = 64 → (a = b ↔ reinterpret64 T a = reinterpret64 T b) ∧
      (atomicCAS64 T a b d).1 = (if a = b then d else a)) ∧
    (float.Valid fa → float.Valid fb → float.Valid fd →
      (fa = fb ↔ reinterpret32_float fa = reinterpret32_float fb) ∧
      (atomicCAS32_float fa fb fd).1 = (if fa = fb then fd else fa)) ∧
    (double.Valid fa → double.Valid fb → double.Valid fd →
      (fa = fb ↔ reinterpret64_double fa = reinterpret64_double fb) ∧
      (atomicCAS64_double fa fb fd).1 = (if fa = fb then fd else fa)) := by
  refine ⟨fun hW => ⟨?_, ?_⟩, fun hW => ⟨?_, ?_⟩, fun h1 h2 h3 => ⟨?_, ?_⟩,
    fun h1 h2 h3 => ⟨?_, ?_⟩⟩
  · exact (unionCast32_inj T hW a b ha hb).symm
  · rw [atomicCAS32_step T hW a b d ha hb hd]
  · exact (unionCast64_inj T hW a b ha hb).symm
  · rw [atomicCAS64_step T hW a b d ha hb hd]
  · rw [reinterpret32_float_eq fa h1, reinterpret32_float_eq fb h2, Nat.cast_inj]
  · rw [atomicCAS32_float_step fa fb fd h1 h2 h3]
  · rw [reinterpret64_double_eq fa h1, reinterpret64_double_eq fb h2, Nat.cast_inj]
  · rw [atomicCAS64_double_step fa fb fd h1 h2 h3]

/-- C10, amended, at `int32_t` and at the two `float` zeros. -/
theorem reinterpret_eq_iff_same_payload_witness :
    (((-5 : Int) = 3 ↔ reinterpret32 int32_t (-5) = reinterpret32 int32_t 3) ∧
      (atomicCAS32 int32_t (-5) 3 7).1 = (if (-5 : Int) = 3 then 7 else -5)) ∧
    (((0 : Nat) = 2147483648 ↔ reinterpret32_float 0 = reinterpret32_float 2147483648) ∧
      (atomicCAS32_float 0 2147483648 1).1 = (if (0 : Nat) = 2147483648 then 1 else 0)) :=
  have h := reinterpret_eq_iff_same_payload int32_t (-5) 3 7 (by decide) (by decide)
    (by decide) 0 2147483648 1
  ⟨h.1 (by decide), h.2.2.1 (by decide) (by decide) (by decide)⟩

/-- C3, amended, at `int32_t` with `x = -7`, `y = 2`. -/
theorem mod_sign_of_divisor_witness :
    (∃ r, mod int32_t (-7) 2 = some r ∧
      (r = 0 ∨ ((0 : Int) < 2 ∧ 0 < r) ∨ ((2 : Int) < 0 ∧ r < 0))) ∧
    mod int32_t (-7) 2 = some 1 :=
  mod_sign_of_divisor int32_t rfl (Or.inl (by decide)) (-7) 2 (by decide) (by decide)
    (by decide) (by decide)

/-- C5 at `uint32_t` with `x = 2147483649`, `i = 1`, `j = 0`. -/
theorem rotate_bits_unsigned_witness :
    bitAt uint32_t (rotateL uint32_t 2147483649 1) 0
      = bitAt uint32_t 2147483649 ((((0 : Nat) : Int) - 1) % uint32_t.bits).toNat ∧
    bitAt uint32_t (rotateR uint32_t 2147483649 1) 0
      = bitAt uint32_t 2147483649 ((((0 : Nat) : Int) + 1) % uint32_t.bits).toNat :=
  rotate_bits_unsigned uint32_t rfl (Or.inl (by decide)) 2147483649 1 (by decide) 0
    (by decide)

/-- C6 at `int32_t` with `x = -2`, `i = 33`. -/
theorem rotate_shift_mod_width_witness :
    rotateL int32_t (-2) 33 = rotateL int32_t (-2) (33 % int32_t.bits) ∧
    rotateL int32_t (-2) 0 = -2 ∧
    rotateR int32_t (-2) 33 = rotateR int32_t (-2) (33 % int32_t.bits) ∧
    rotateR int32_t (-2) 0 = -2 :=
  rotate_shift_mod_width int32_t (Or.inl (by decide)) (-2) 33

/-- On an unsigned type the value of a rotation is again a value of the type. -/
theorem rotate_unsigned_range (s : Nat) (hs : s = 4 ∨ s = 8) (n : Nat)
    (hn : n < 2 ^ (8 * s)) (i : Int) :
    (∃ m : Nat, m < 2 ^ (8 * s) ∧ rotateL (IntTy.mk s false) (n : Int) i = (m : Int)) ∧
    (∃ m : Nat, m < 2 ^ (8 * s) ∧ rotateR (IntTy.mk s false) (n : Int) i = (m : Int)) := by
  have hW : (IntTy.mk s false).bits = 32 ∨ (IntTy.mk s false).bits = 64 := by
    simp only [IntTy.bits]; omega
  have hpos : 0 < 2 ^ (8 * s) := Nat.two_pow_pos _
  rw [rotateL_eq _ hW, rotateR_eq _ hW]
  constructor <;> split_ifs
  · exact ⟨n, hn, rfl⟩
  · exact ⟨_, Nat.mod_lt _ hpos, ofBits_unsigned s _⟩
  · exact ⟨n, hn, rfl⟩
  · exact ⟨_, Nat.mod_lt _ hpos, ofBits_unsigned s _⟩

/-- On an unsigned type of 32 or 64 bits `rotateR` undoes `rotateL`. -/
theorem rotateR_rotateL_unsigned (T : IntTy) (hu : T.signed = false)
    (hW : T.bits = 32 ∨ T.bits = 64) (x i : Int) (hx : T.InRange x) :
    rotateR T (rotateL T x i) i = x := by
  obtain ⟨s, sg⟩ := T
  simp only at hu
  subst hu
  simp only [IntTy.bits] at hW
  have hs : s = 4 ∨ s = 8 := by omega
  simp only [IntTy.InRange, IntTy.minVal, IntTy.maxVal, IntTy.bits] at hx
  simp only [Bool.false_eq_true, if_false] at hx
  obtain ⟨n, rfl⟩ : ∃ n : Nat, x = (n : Int) := ⟨x.toNat, by omega⟩
  have hn : n < 2 ^ (8 * s) := by
    have h2 : (n : Int) < 2 ^ (8 * s) := by omega
    exact_mod_cast h2
  obtain ⟨m, hm, hL⟩ := (rotate_unsigned_range s hs n hn i).1
  obtain ⟨p, hp, hR⟩ := (rotate_unsigned_range s hs m hm i).2
  have hbits : ∀ (q : Nat), q < 2 ^ (8 * s) → ∀ j,
      bitAt (IntTy.mk s false) (q : Int) j = q.testBit j := by
    intro q hq j
    simp only [bitAt, toBits_natCast, IntTy.bits, Nat.mod_eq_of_lt hq]
  rw [hL, hR]
  suffices hpn : p = n by rw [hpn]
  apply Nat.eq_of_testBit_eq
  intro j
  by_cases hj : j < 8 * s
  · have h1 := (rotate_bits_aux s hs m hm i j hj).2
    rw [hR, hbits p hp] at h1
    have hj2 : (((j : Int) + i) % ((8 * s : Nat) : Int)).toNat < 8 * s := by
      rcases hs with rfl | rfl <;> omega
    have h2 := (rotate_bits_aux s hs n hn i _ hj2).1
    rw [hL, hbits m hm] at h2
    have e : (((((((j : Int) + i) % ((8 * s : Nat) : Int)).toNat : Nat) : Int) - i)
        % ((8 * s : Nat) : Int)).toNat = j := by
      rcases hs with rfl | rfl <;> omega
    rw [h1, h2, e]
  · have hle : 2 ^ (8 * s) ≤ 2 ^ j := Nat.pow_le_pow_right (by norm_num) (by omega)
    rw [Nat.testBit_lt_two_pow (lt_of_lt_of_le hp hle),
      Nat.testBit_lt_two_pow (lt_of_lt_of_le hn hle)]


/-! ## Round trip of the reinterpretation -/

/-- C11. Reading `reinterpret32 v` back through the union of `atomicCAS32` gives `v`,
for every 32-bit integer payload and for every `float` encoding; `reinterpret32` at
`uint32_t` is the identity; and likewise for `reinterpret64` and `atomicCAS64`. -/
theorem reinterpret_roundtrip (T : IntTy) (v : Int) (hv : T.InRange v) (f : Nat) :
    (T.bits = 32 → unionCast uint32_t T (reinterpret32 T v) = v) ∧
    (T = uint32_t → reinterpret32 T v = v) ∧
    (float.Valid f → uint32_t.toBits (reinterpret32_float f) = f) ∧
    (T.bits = 64 → unionCast uint64_t T (reinterpret64 T v) = v) ∧
    (T = uint64_t → reinterpret64 T v = v) ∧
    (double.Valid f → uint64_t.toBits (reinterpret64_double f) = f) := by
  refine ⟨fun hW => unionCast32_roundtrip T hW v hv, fun hT => ?_,
    fun hf => ?_, fun hW => unionCast64_roundtrip T hW v hv, fun hT => ?_, fun hf => ?_⟩
  · subst hT
    simp only [IntTy.InRange, IntTy.minVal, IntTy.maxVal, IntTy.bits, uint32_t,
      Bool.false_eq_true, if_false, two_pow_32] at hv
    simp only [reinterpret32, unionCast, IntTy.ofBits, IntTy.toBits, IntTy.wrap, IntTy.bits,
      uint32_t, Bool.false_eq_true, if_false, two_pow_32]
    omega
  · rw [reinterpret32_float_eq f hf, toBits_uint32_of_valid f hf]
  · subst hT
    simp only [IntTy.InRange, IntTy.minVal, IntTy.maxVal, IntTy.bits, uint64_t,
      Bool.false_eq_true, if_false, two_pow_64] at hv
    simp only [reinterpret64, unionCast, IntTy.ofBits, IntTy.toBits, IntTy.wrap, IntTy.bits,
      uint64_t, Bool.false_eq_true, if_false, two_pow_64]
    omega
  · rw [reinterpret64_double_eq f hf, toBits_uint64_of_valid f hf]

/-- C11 at `int32_t` with `v = -1` and at the `float` encoding of a quiet NaN. -/
theorem reinterpret_roundtrip_witness :
    unionCast uint32_t int32_t (reinterpret32 int32_t (-1)) = -1 ∧
    uint32_t.toBits (reinterpret32_float 2143289344) = 2143289344 :=
  have h := reinterpret_roundtrip int32_t (-1) (by decide) 2143289344
  ⟨h.1 (by decide), h.2.2.1 (by decide)⟩

/-! ## Architecture guards -/

/-- C12 as stated fails: with `__CUDA_ARCH__` defined as `120` the function
`atomicCAS64` is compiled in and the `double` specialisation of `reinterpret64` is
not. -/
theorem guards_differ_at_120 :
    atomicCAS64_compiled (some 120) = true ∧
    reinterpret64_double_compiled (some 120) = false := by decide

/-- C12, amended. `atomicCAS64` is compiled in exactly when `__CUDA_ARCH__` is
undefined or at least `120`, the `double` specialisation of `reinterpret64` exactly
when it is undefined or at least `130`; so the specialisation being compiled in implies
that `atomicCAS64` is, the two differ exactly for values from `120` to `129`, and
`atomicCAS32` is compiled in for every configuration. -/
theorem guards_by_architecture (arch : Option Int) :
    (atomicCAS64_compiled arch = true ↔ (arch = none ∨ ∃ a, arch = some a ∧ 120 ≤ a)) ∧
    (reinterpret64_double_compiled arch = true ↔
      (arch = none ∨ ∃ a, arch = some a ∧ 130 ≤ a)) ∧
    (reinterpret64_double_compiled arch = true → atomicCAS64_compiled arch = true) ∧
    (atomicCAS64_compiled arch ≠ reinterpret64_double_compiled arch ↔
      ∃ a, arch = some a ∧ 120 ≤ a ∧ a < 130) ∧
    atomicCAS32_compiled arch = true := by
  cases arch with
  | none => simp [atomicCAS64_compiled, reinterpret64_double_compiled, atomicCAS32_compiled]
  | some a =>
    have h1 : atomicCAS64_compiled (some a) = decide (a ≥ 120) := by
      simp [atomicCAS64_compiled]
    have h2 : reinterpret64_double_compiled (some a) = decide (a ≥ 130) := by
      simp [reinterpret64_double_compiled]
    rw [h1, h2]
    refine ⟨by simp, by simp, by simp; omega, ?_, rfl⟩
    by_cases c1 : a ≥ 120 <;> by_cases c2 : a ≥ 130 <;> simp [c1, c2] <;> omega


/-! ## Shift amounts of the rotations -/

/-- The rotations are written with the two named shift amounts. -/
theorem rotate_by_shiftAmount (T : IntTy) (x i : Int) :
    rotateL T x i = (if shiftAmount T i = 0 then x
      else T.bor (T.shl x (shiftAmount T i)) (T.shr x (coShiftAmount T i))) ∧
    rotateR T x i = (if shiftAmount T i = 0 then x
      else T.bor (T.shr x (shiftAmount T i)) (T.shl x (coShiftAmount T i))) :=
  ⟨rfl, rfl⟩

/-- C13. The normalised shift `i8` of `rotateL` and `rotateR` lies in `0..W-1`, and
when a shift is executed (`i8 ≠ 0`) both shift amounts, `i8` and `W - i8`, lie in
`1..W-1`; the rotations shift by exactly these two amounts. -/
theorem shift_amounts_in_range (T : IntTy) (hW : T.bits = 32 ∨ T.bits = 64) (x i : Int) :
    (0 ≤ shiftAmount T i ∧ shiftAmount T i ≤ T.bits - 1) ∧
    (shiftAmount T i ≠ 0 →
      (1 ≤ shiftAmount T i ∧ shiftAmount T i ≤ T.bits - 1) ∧
      (1 ≤ coShiftAmount T i ∧ coShiftAmount T i ≤ T.bits - 1) ∧
      coShiftAmount T i = T.bits - shiftAmount T i) ∧
    rotateL T x i = (if shiftAmount T i = 0 then x
      else T.bor (T.shl x (shiftAmount T i)) (T.shr x (coShiftAmount T i))) ∧
    rotateR T x i = (if shiftAmount T i = 0 then x
      else T.bor (T.shr x (shiftAmount T i)) (T.shl x (coShiftAmount T i))) := by
  have h1 : shiftAmount T i = i % T.bits := shiftAmount_eq T hW i
  have h2 : coShiftAmount T i = T.bits - i % T.bits := by
    unfold coShiftAmount
    rw [h1]
    exact shiftCount_eq T hW i
  refine ⟨?_, fun hne => ?_, (rotate_by_shiftAmount T x i).1, (rotate_by_shiftAmount T x i).2⟩
  · rw [h1]
    rcases hW with h | h <;> rw [h] <;> omega
  · rw [h2]
    rw [h1] at hne ⊢
    rcases hW with h | h <;> rw [h] at hne ⊢ <;> omega

/-- C13 at `int64_t` with the shift `i = -1`. -/
theorem shift_amounts_in_range_witness :
    shiftAmount int64_t (-1) = 63 ∧ coShiftAmount int64_t (-1) = 1 :=
  have h := shift_amounts_in_range int64_t (Or.inr (by decide)) 5 (-1)
  have h63 : shiftAmount int64_t (-1) = 63 := by decide
  ⟨h63, by rw [(h.2.1 (by rw [h63]; decide)).2.2, h63]; decide⟩

/-! ## Generic template against the specialisations -/

/-- C14. At `int32_t` and at `uint32_t` the generic `atomicCAS32` returns the same
value and leaves the same cell contents as the specialisation; so does the generic
`atomicCAS64` at `unsigned long long int`. -/
theorem atomicCAS_generic_eq_specialised (m e d : Int) :
    (int32_t.InRange m → int32_t.InRange e → int32_t.InRange d →
      atomicCAS32 int32_t m e d = atomicCAS32_int32_t m e d) ∧
    (uint32_t.InRange m → uint32_t.InRange e → uint32_t.InRange d →
      atomicCAS32 uint32_t m e d = atomicCAS32_uint32_t m e d) ∧
    (uint64_t.InRange m → uint64_t.InRange e → uint64_t.InRange d →
      atomicCAS64 uint64_t m e d = atomicCAS64_ulonglong m e d) := by
  refine ⟨fun hm he hd => ?_, fun hm he hd => ?_, fun hm he hd => ?_⟩
  · rw [atomicCAS32_step int32_t (by decide) m e d hm he hd]; rfl
  · rw [atomicCAS32_step uint32_t (by decide) m e d hm he hd]; rfl
  · rw [atomicCAS64_step uint64_t (by decide) m e d hm he hd]; rfl

/-- C14 at the stored value `7`, expected `7` and desired `9`. -/
theorem atomicCAS_generic_eq_specialised_witness :
    atomicCAS32 int32_t 7 7 9 = atomicCAS32_int32_t 7 7 9 ∧
    atomicCAS32 uint32_t 7 7 9 = atomicCAS32_uint32_t 7 7 9 ∧
    atomicCAS64 uint64_t 7 7 9 = atomicCAS64_ulonglong 7 7 9 :=
  have h := atomicCAS_generic_eq_specialised 7 7 9
  ⟨h.1 (by decide) (by decide) (by decide), h.2.1 (by decide) (by decide) (by decide),
    h.2.2 (by decide) (by decide) (by decide)⟩

/-! ## Negative shifts -/

theorem bor_comm (T : IntTy) (a b : Int) : T.bor a b = T.bor b a := by
  simp only [IntTy.bor, Nat.lor_comm]

/-- C17. Rotating left by `i` is rotating right by `-i` and rotating right by `i` is
rotating left by `-i`, the negation being that of `int32_t`. -/
theorem rotate_neg_shift (T : IntTy) (hW : T.bits = 32 ∨ T.bits = 64) (x i : Int) :
    rotateL T x i = rotateR T x (int32_t.neg i) ∧
    rotateR T x i = rotateL T x (int32_t.neg i) := by
  rw [rotateL_eq T hW, rotateR_eq T hW, rotateL_eq T hW, rotateR_eq T hW]
  have hneg : int32_t.neg i = (-i + 2147483648) % 4294967296 - 2147483648 := by
    simp only [IntTy.neg, IntTy.wrap, IntTy.bits, int32_t, if_true, two_pow_32, two_pow_31]
  rw [hneg]
  rcases hW with h | h <;> rw [h] <;> simp only [Nat.cast_ofNat]
  · by_cases hk : i % 32 = 0
    · have hk2 : ((-i + 2147483648) % 4294967296 - 2147483648) % 32 = 0 := by omega
      simp only [hk, hk2, if_true, and_self]
    · have hk2 : ((-i + 2147483648) % 4294967296 - 2147483648) % 32 = 32 - i % 32 := by omega
      have hk3 : ¬ ((32 : Int) - i % 32 = 0) := by omega
      have hk4 : (32 : Int) - (32 - i % 32) = i % 32 := by omega
      simp only [hk, hk2, hk3, hk4, if_false]
      exact ⟨bor_comm T _ _, bor_comm T _ _⟩
  · by_cases hk : i % 64 = 0
    · have hk2 : ((-i + 2147483648) % 4294967296 - 2147483648) % 64 = 0 := by omega
      simp only [hk, hk2, if_true, and_self]
    · have hk2 : ((-i + 2147483648) % 4294967296 - 2147483648) % 64 = 64 - i % 64 := by omega
      have hk3 : ¬ ((64 : Int) - i % 64 = 0) := by omega
      have hk4 : (64 : Int) - (64 - i % 64) = i % 64 := by omega
      simp only [hk, hk2, hk3, hk4, if_false]
      exact ⟨bor_comm T _ _, bor_comm T _ _⟩

/-- C17 at `int32_t` with `x = -2` and `i = 5`. -/
theorem rotate_neg_shift_witness :
    rotateL int32_t (-2) 5 = rotateR int32_t (-2) (int32_t.neg 5) ∧
    rotateR int32_t (-2) 5 = rotateL int32_t (-2) (int32_t.neg 5) :=
  rotate_neg_shift int32_t (Or.inl (by decide)) (-2) 5


/-! ## The closed forms on the mathematical integers -/

/-- Rounding a quotient of non-negative integers up: adding `b - 1` before dividing
adds one to the quotient exactly when the remainder is nonzero. -/
theorem ediv_add_pred (a b : Int) (hb : 0 < b) :
    (a + b - 1) / b = if a % b = 0 then a / b else a / b + 1 := by
  have hq : a % b + b * (a / b) = a := Int.emod_add_ediv a b
  have h0 : 0 ≤ a % b := Int.emod_nonneg a (by omega)
  have h1 : a % b < b := Int.emod_lt_of_pos a hb
  by_cases hr : a % b = 0
  · rw [if_pos hr]
    have h := (@Int.ediv_emod_unique (a + b - 1) b (b - 1) (a / b) hb).mpr
      ⟨by rw [hr] at hq; linarith, by omega, by omega⟩
    exact h.1
  · rw [if_neg hr]
    have h := (@Int.ediv_emod_unique (a + b - 1) b (a % b - 1) (a / b + 1) hb).mpr
      ⟨by linarith, by omega, by omega⟩
    exact h.1

/-- The closed form of `idiv` for a positive dividend and a negative divisor. -/
theorem tdiv_closed_pos_neg (x y : Int) (hx : 0 < x) (hy : y < 0) :
    Int.tdiv (x - y - 1) y
      = if Int.tmod x y ≠ 0 then Int.tdiv x y - 1 else Int.tdiv x y := by
  obtain ⟨b, rfl⟩ : ∃ b : Int, y = -b := ⟨-y, by ring⟩
  have hb : 0 < b := by omega
  have e1 : x - -b - 1 = x + b - 1 := by ring
  rw [e1, Int.tdiv_neg, Int.tdiv_neg, Int.tmod_neg,
    Int.tdiv_eq_ediv (by omega) (by omega), Int.tdiv_eq_ediv (by omega) (by omega),
    Int.tmod_eq_emod (by omega) (by omega), ediv_add_pred x b hb]
  by_cases hr : x % b = 0
  · simp [hr]
  · simp only [hr, if_false, ne_eq, not_false_eq_true, if_true]
    ring

/-- The closed form of `idiv` for a negative dividend and a positive divisor. -/
theorem tdiv_closed_neg_pos (x y : Int) (hx : x < 0) (hy : 0 < y) :
    Int.tdiv (x - y + 1) y
      = if Int.tmod x y ≠ 0 then Int.tdiv x y - 1 else Int.tdiv x y := by
  obtain ⟨a, rfl⟩ : ∃ a : Int, x = -a := ⟨-x, by ring⟩
  have ha : 0 < a := by omega
  have e1 : -a - y + 1 = -(a + y - 1) := by ring
  rw [e1, Int.neg_tdiv, Int.neg_tdiv, neg_tmod_eq,
    Int.tdiv_eq_ediv (by omega) (by omega), Int.tdiv_eq_ediv (by omega) (by omega),
    Int.tmod_eq_emod (by omega) (by omega), ediv_add_pred a y hy]
  by_cases hr : a % y = 0
  · simp [hr]
  · have hr2 : ¬ (-(a % y) = 0) := by omega
    simp only [hr, hr2, if_false, ne_eq, not_false_eq_true, if_true]
    ring

/-- The source expressions of `idiv` and `mod`, read on the mathematical integers, are
the truncating quotient and remainder adjusted as the specification words it. -/
theorem idivZ_modZ_eq_spec (x y : Int) (hy : y ≠ 0) :
    idivZ x y = floorDivSpec x y ∧ modZ x y = floorModSpec x y := by
  unfold idivZ modZ floorDivSpec floorModSpec
  rcases lt_trichotomy x 0 with hx | hx | hx
  · rcases lt_or_gt_of_ne hy with hy1 | hy1
    · have hs : Int.sign x = Int.sign y := by
        rw [Int.sign_eq_neg_one_of_neg hx, Int.sign_eq_neg_one_of_neg hy1]
      have c1 : ¬ (x > 0 ∧ y < 0) := by omega
      have c2 : ¬ (x < 0 ∧ y > 0) := by omega
      have c3 : ¬ ((x > 0 ∧ y < 0) ∨ (x < 0 ∧ y > 0)) := by omega
      simp [c1, c2, c3, hs]
    · have hs : Int.sign x ≠ Int.sign y := by
        rw [Int.sign_eq_neg_one_of_neg hx, Int.sign_eq_one_of_pos hy1]; decide
      have c1 : ¬ (x > 0 ∧ y < 0) := by omega
      have c2 : x < 0 ∧ y > 0 := ⟨hx, hy1⟩
      have c3 : (x > 0 ∧ y < 0) ∨ (x < 0 ∧ y > 0) := Or.inr c2
      rw [if_neg c1, if_pos c2, if_pos c3, tdiv_closed_neg_pos x y hx hy1]
      by_cases hr : Int.tmod x y = 0 <;> simp [hr, hs]
  · subst hx
    simp
  · rcases lt_or_gt_of_ne hy with hy1 | hy1
    · have hs : Int.sign x ≠ Int.sign y := by
        rw [Int.sign_eq_one_of_pos hx, Int.sign_eq_neg_one_of_neg hy1]; decide
      have c1 : x > 0 ∧ y < 0 := ⟨hx, hy1⟩
      have c3 : (x > 0 ∧ y < 0) ∨ (x < 0 ∧ y > 0) := Or.inl c1
      rw [if_pos c1, if_pos c3, tdiv_closed_pos_neg x y hx hy1]
      by_cases hr : Int.tmod x y = 0 <;> simp [hr, hs]
    · have hs : Int.sign x = Int.sign y := by
        rw [Int.sign_eq_one_of_pos hx, Int.sign_eq_one_of_pos hy1]
      have c1 : ¬ (x > 0 ∧ y < 0) := by omega
      have c2 : ¬ (x < 0 ∧ y > 0) := by omega
      have c3 : ¬ ((x > 0 ∧ y < 0) ∨ (x < 0 ∧ y > 0)) := by omega
      simp [c1, c2, c3, hs]

/-- C15. On the mathematical integers the closed form of `idiv` is the truncating
quotient decremented by one exactly when the signs of `x` and `y` differ and the
remainder is nonzero, and `mod` is the truncating remainder with `y` added under the
same condition. -/
theorem closed_forms_eq_adjustment (x y : Int) (hy : y ≠ 0) :
    idivZ x y = floorDivSpec x y ∧ modZ x y = floorModSpec x y :=
  idivZ_modZ_eq_spec x y hy

/-- C15 at `x = -7`, `y = 2`. -/
theorem closed_forms_eq_adjustment_witness :
    idivZ (-7) 2 = floorDivSpec (-7) 2 ∧ modZ (-7) 2 = floorModSpec (-7) 2 :=
  closed_forms_eq_adjustment (-7) 2 (by decide)


/-! ## The modulus at `W` bits is the exact floor modulus -/

/-- The remainder of a negated dividend, for a positive divisor. -/
theorem neg_emod_of_pos (a b : Int) (hb : 0 < b) :
    (-a) % b = if a % b = 0 then 0 else b - a % b := by
  have hq : a % b + b * (a / b) = a := Int.emod_add_ediv a b
  have h0 : 0 ≤ a % b := Int.emod_nonneg a (by omega)
  have h1 : a % b < b := Int.emod_lt_of_pos a hb
  by_cases hr : a % b = 0
  · rw [if_pos hr]
    have h := (@Int.ediv_emod_unique (-a) b 0 (-(a / b)) hb).mpr
      ⟨by rw [hr] at hq; linarith, by omega, by omega⟩
    exact h.2
  · rw [if_neg hr]
    have h := (@Int.ediv_emod_unique (-a) b (b - a % b) (-(a / b) - 1) hb).mpr
      ⟨by linarith, by omega, by omega⟩
    exact h.2

/-- The exact floor modulus `x - y * ⌊x / y⌋`, in terms of the remainder of the
integers. -/
theorem floor_modulus_eq (x y : Int) (hy : y ≠ 0) :
    x - y * ⌊(x : ℚ) / (y : ℚ)⌋ = if 0 < y then x % y else -((-x) % (-y)) := by
  by_cases hpos : 0 < y
  · rw [if_pos hpos]
    obtain ⟨d, rfl⟩ : ∃ d : Nat, y = (d : Int) := ⟨y.toNat, by omega⟩
    have hf : ⌊(x : ℚ) / (((d : Nat) : Int) : ℚ)⌋ = x / (d : Int) := by
      rw [Int.cast_natCast]
      exact Rat.floor_intCast_div_natCast x d
    rw [hf, Int.emod_def]
  · rw [if_neg hpos]
    obtain ⟨d, hd⟩ : ∃ d : Nat, -y = (d : Int) := ⟨(-y).toNat, by omega⟩
    have hyd : y = -(d : Int) := by omega
    have hf : ⌊(x : ℚ) / (y : ℚ)⌋ = (-x) / (d : Int) := by
      rw [← Rat.floor_intCast_div_natCast (-x) d, hyd]
      congr 1
      push_cast
      rw [neg_div, div_neg]
    rw [hf, hd, Int.emod_def, hyd]
    ring

/-- On the mathematical integers `mod` is the exact floor modulus. -/
theorem modZ_eq_floor_modulus (x y : Int) (hy : y ≠ 0) :
    modZ x y = x - y * ⌊(x : ℚ) / (y : ℚ)⌋ := by
  rw [floor_modulus_eq x y hy]
  unfold modZ
  rcases lt_or_gt_of_ne hy with hy1 | hy1
  · obtain ⟨b, rfl⟩ : ∃ b : Int, y = -b := ⟨-y, by ring⟩
    have hb : 0 < b := by omega
    have hnp : ¬ (0 < -b) := by omega
    rw [if_neg hnp, neg_neg, Int.tmod_neg]
    rcases lt_trichotomy x 0 with hx | hx | hx
    · obtain ⟨a, rfl⟩ : ∃ a : Int, x = -a := ⟨-x, by ring⟩
      have c3 : ¬ ((-a > 0 ∧ -b < 0) ∨ (-a < 0 ∧ -b > 0)) := by omega
      simp only [if_neg c3, neg_neg, neg_tmod_eq]
      rw [Int.tmod_eq_emod (by omega) (by omega)]
    · subst hx
      simp
    · have c3 : (x > 0 ∧ -b < 0) ∨ (x < 0 ∧ -b > 0) := Or.inl ⟨hx, by omega⟩
      simp only [if_pos c3]
      rw [Int.tmod_eq_emod (by omega) (by omega), neg_emod_of_pos x b hb]
      by_cases hr : x % b = 0
      · simp [hr]
      · simp only [hr, ne_eq, not_false_eq_true, if_true, if_false]
        ring
  · rw [if_pos hy1]
    rcases lt_trichotomy x 0 with hx | hx | hx
    · obtain ⟨a, rfl⟩ : ∃ a : Int, x = -a := ⟨-x, by ring⟩
      have c3 : (-a > 0 ∧ y < 0) ∨ (-a < 0 ∧ y > 0) := Or.inr ⟨hx, hy1⟩
      simp only [if_pos c3, neg_tmod_eq]
      rw [Int.tmod_eq_emod (by omega) (by omega), neg_emod_of_pos a y hy1]
      have h0 : 0 ≤ a % y := Int.emod_nonneg a (by omega)
      by_cases hr : a % y = 0
      · simp [hr]
      · have hr2 : ¬ (-(a % y) = 0) := by omega
        simp only [hr, hr2, ne_eq, not_false_eq_true, if_true, if_false]
        ring
    · subst hx
      simp
    · have c3 : ¬ ((x > 0 ∧ y < 0) ∨ (x < 0 ∧ y > 0)) := by omega
      simp only [if_neg c3]
      rw [Int.tmod_eq_emod (by omega) (by omega)]

/-- At a signed type of 32 or 64 bits, where `x % y` is defined, no step of `mod`
leaves the type: the remainder and the adjusted remainder are the exact ones, so `mod`
is its reading on the mathematical integers, and it is smaller than the divisor in
absolute value. -/
theorem mod_exact (T : IntTy) (hs : T.signed = true) (hW : T.bits = 32 ∨ T.bits = 64)
    (x y : Int) (hx : T.InRange x) (hy : T.InRange y) (hy0 : y ≠ 0)
    (hdef : ¬ (x = T.minVal ∧ y = -1)) :
    T.rem x y = some (Int.tmod x y) ∧
    (((x > 0 ∧ y < 0) ∨ (x < 0 ∧ y > 0)) →
      T.InRange (Int.tmod x y + y) ∧ T.add (Int.tmod x y) y = Int.tmod x y + y) ∧
    mod T x y = some (modZ x y) ∧ |modZ x y| < |y| := by
  have hnd : ¬ T.divUndefined x y := div_defined_of_ne T x y hy0 hdef
  rw [mod_of_defined T x y hnd, IntTy.rem, if_neg hnd]
  clear hnd hdef
  obtain ⟨hb1, hb2⟩ := tmod_bounds x y hy0
  obtain ⟨s, sg⟩ := T
  simp only at hs
  subst hs
  simp only [IntTy.bits] at hW
  have hs4 : s = 4 ∨ s = 8 := by omega
  simp only [IntTy.InRange, IntTy.minVal, IntTy.maxVal, IntTy.bits, if_true] at hx hy ⊢
  simp only [Option.some.injEq, modZ, IntTy.add, IntTy.wrap, IntTy.bits, if_true]
  generalize x.tmod y = r at hb1 hb2 ⊢
  rcases hs4 with rfl | rfl
  · simp only [two_pow_32, two_pow_31] at hx hy ⊢
    rcases abs_cases y with ⟨ha, hsgn⟩ | ⟨ha, hsgn⟩ <;> rw [ha] at hb1 hb2 ⊢ <;>
      refine ⟨by omega, fun hc => ⟨by omega, by omega⟩, ?_, ?_⟩ <;>
      split_ifs <;> first | omega | (rw [abs_lt]; omega)
  · simp only [two_pow_64, two_pow_63] at hx hy ⊢
    rcases abs_cases y with ⟨ha, hsgn⟩ | ⟨ha, hsgn⟩ <;> rw [ha] at hb1 hb2 ⊢ <;>
      refine ⟨by omega, fun hc => ⟨by omega, by omega⟩, ?_, ?_⟩ <;>
      split_ifs <;> first | omega | (rw [abs_lt]; omega)

/-- C16 as stated fails at `x = -9223372036854775808`, `y = -1` of `int64_t` (and at
the corresponding pair of `int32_t`): the divisor is nonzero and the exact floor
modulus is `0`, but `x % y` has no result there, so `mod` returns no value. -/
theorem mod_no_value_at_min :
    int64_t.InRange (-9223372036854775808) ∧ int64_t.InRange (-1) ∧ (-1 : Int) ≠ 0 ∧
    int64_t.rem (-9223372036854775808) (-1) = none ∧
    mod int64_t (-9223372036854775808) (-1) = none ∧
    int32_t.rem (-2147483648) (-1) = none ∧
    mod int32_t (-2147483648) (-1) = none := by decide

/-- C16, amended. At a signed type of 32 or 64 bits, for a nonzero divisor `y` and a
dividend `x`, other than the smallest value with `y = -1`, `mod x y` computed at `W`
bits returns the exact floor modulus `x - y * ⌊x / y⌋`: the remainder `x % y` is the
exact one, the adjustment `r + y` does not overflow, and the result is smaller than
`y` in absolute value. -/
theorem mod_eq_floor_modulus (T : IntTy) (hs : T.signed = true)
    (hW : T.bits = 32 ∨ T.bits = 64) (x y : Int) (hx : T.InRange x) (hy : T.InRange y)
    (hy0 : y ≠ 0) (hdef : ¬ (x = T.minVal ∧ y = -1)) :
    mod T x y = some (x - y * ⌊(x : ℚ) / (y : ℚ)⌋) ∧
    T.rem x y = some (Int.tmod x y) ∧
    (((x > 0 ∧ y < 0) ∨ (x < 0 ∧ y > 0)) →
      T.InRange (Int.tmod x y + y) ∧ T.add (Int.tmod x y) y = Int.tmod x y + y) ∧
    0 ≤ |x - y * ⌊(x : ℚ) / (y : ℚ)⌋| ∧ |x - y * ⌊(x : ℚ) / (y : ℚ)⌋| < |y| := by
  obtain ⟨h1, h2, h3, h4⟩ := mod_exact T hs hW x y hx hy hy0 hdef
  rw [modZ_eq_floor_modulus x y hy0] at h3 h4
  exact ⟨h3, h1, h2, abs_nonneg _, h4⟩

/-- C16, amended, at `int32_t` with `x = -7`, `y = 2`. -/
theorem mod_eq_floor_modulus_witness :
    mod int32_t (-7) 2 = some (-7 - 2 * ⌊((-7 : Int) : ℚ) / ((2 : Int) : ℚ)⌋) ∧
    |(-7 : Int) - 2 * ⌊((-7 : Int) : ℚ) / ((2 : Int) : ℚ)⌋| < |(2 : Int)| :=
  have h := mod_eq_floor_modulus int32_t rfl (Or.inl (by decide)) (-7) 2 (by decide)
    (by decide) (by decide) (by decide)
  ⟨h.1, h.2.2.2.2⟩

/-! ## Where `idiv` is the floor quotient -/

/-- On the mathematical integers the quotient and the modulus of the source satisfy
the division identity. -/
theorem idivZ_mul_add_modZ (x y : Int) (hy : y ≠ 0) : idivZ x y * y + modZ x y = x := by
  obtain ⟨h1, h2⟩ := idivZ_modZ_eq_spec x y hy
  rw [h1, h2]
  unfold floorDivSpec floorModSpec
  have h := Int.tdiv_add_tmod' x y
  split_ifs <;> linarith

/-- On the mathematical integers the closed form of `idiv` is the floor of the exact
quotient. -/
theorem idivZ_eq_floor (x y : Int) (hy : y ≠ 0) : idivZ x y = ⌊(x : ℚ) / (y : ℚ)⌋ := by
  have h1 := idivZ_mul_add_modZ x y hy
  have h2 := modZ_eq_floor_modulus x y hy
  have h3 : (idivZ x y - ⌊(x : ℚ) / (y : ℚ)⌋) * y = 0 := by
    rw [h2] at h1
    linarith
  rcases mul_eq_zero.mp h3 with h | h
  · linarith
  · exact absurd h hy

theorem tdiv_abs_le (a b : Int) : |Int.tdiv a b| ≤ |a| := by
  rw [Int.abs_eq_natAbs, Int.abs_eq_natAbs, Int.natAbs_tdiv]
  exact_mod_cast Nat.div_le_self _ _

theorem tdiv_abs_le_half (a b : Int) (hb : 2 ≤ |b|) : 2 * |Int.tdiv a b| ≤ |a| := by
  rw [Int.abs_eq_natAbs, Int.abs_eq_natAbs, Int.natAbs_tdiv]
  rw [Int.abs_eq_natAbs] at hb
  have hb2 : 2 ≤ b.natAbs := by exact_mod_cast hb
  have h1 : a.natAbs / b.natAbs * b.natAbs ≤ a.natAbs := Nat.div_mul_le_self _ _
  have h2 : a.natAbs / b.natAbs * 2 ≤ a.natAbs / b.natAbs * b.natAbs :=
    Nat.mul_le_mul_left _ hb2
  have h3 : 2 * (a.natAbs.div b.natAbs) ≤ a.natAbs := by
    show 2 * (a.natAbs / b.natAbs) ≤ a.natAbs
    omega
  exact_mod_cast h3

theorem tdiv_sign_bounds (a b : Int) :
    (0 ≤ a → 0 < b → 0 ≤ Int.tdiv a b) ∧ (a ≤ 0 → b < 0 → 0 ≤ Int.tdiv a b) ∧
    (0 ≤ a → b < 0 → Int.tdiv a b ≤ 0) ∧ (a ≤ 0 → 0 < b → Int.tdiv a b ≤ 0) := by
  refine ⟨fun ha hb => Int.tdiv_nonneg ha (by omega), fun ha hb => ?_,
    fun ha hb => Int.tdiv_nonpos ha (by omega), fun ha hb => ?_⟩
  · have h := Int.tdiv_nonneg (a := -a) (b := -b) (by omega) (by omega)
    rwa [Int.neg_tdiv_neg] at h
  · have h := Int.tdiv_nonneg (a := -a) (b := b) (by omega) (by omega)
    rw [Int.neg_tdiv] at h
    omega

/-- Where neither intermediate result of `idiv` overflows and the quotient is
representable, `idiv` at `W` bits returns the floor of the exact quotient. -/
theorem idiv_eq_floor_of_no_overflow (T : IntTy) (hs : T.signed = true)
    (hW : T.bits = 32 ∨ T.bits = 64) (x y : Int) (hx : T.InRange x) (hy : T.InRange y)
    (hy0 : y ≠ 0) (h1 : x > 0 ∧ y < 0 → T.InRange (x - y - 1))
    (h2 : x < 0 ∧ y > 0 → T.InRange (x - y + 1)) (h3 : ¬ (x = T.minVal ∧ y = -1)) :
    idiv T x y = some ⌊(x : ℚ) / (y : ℚ)⌋ := by
  rw [← idivZ_eq_floor x y hy0]
  have hnd0 : ¬ T.divUndefined x y := div_defined_of_ne T x y hy0 h3
  obtain ⟨s, sg⟩ := T
  simp only at hs
  subst hs
  simp only [IntTy.bits] at hW
  have hs4 : s = 4 ∨ s = 8 := by omega
  simp only [IntTy.InRange, IntTy.minVal, IntTy.maxVal, IntTy.bits, if_true] at hx hy h1 h2 h3
  simp only [idiv, idivZ]
  by_cases c1 : x > 0 ∧ y < 0
  · have hr := h1 c1
    have hle := tdiv_abs_le (x - y - 1) y
    have hsg := (tdiv_sign_bounds (x - y - 1) y).2.2.1 (by omega) c1.2
    rw [abs_of_nonneg (show 0 ≤ x - y - 1 by omega), abs_of_nonpos hsg] at hle
    rw [if_pos c1, if_pos c1]
    rcases hs4 with rfl | rfl
    · simp only [two_pow_32, two_pow_31] at hx hy hr
      have e : (IntTy.mk 4 true).sub ((IntTy.mk 4 true).sub x y) 1 = x - y - 1 := by
        simp only [IntTy.sub, IntTy.wrap, IntTy.bits, if_true, two_pow_32, two_pow_31]
        omega
      have hnd : ¬ (IntTy.mk 4 true).divUndefined (x - y - 1) y :=
        div_defined_of_ne _ _ _ hy0 (fun h => by
          simp only [IntTy.minVal, IntTy.bits, if_true, two_pow_31] at h
          omega)
      rw [e, IntTy.div, if_neg hnd]
      simp only [Option.some.injEq, IntTy.wrap, IntTy.bits, if_true, two_pow_32, two_pow_31]
      generalize (x - y - 1).tdiv y = q at hle hsg ⊢
      omega
    · simp only [two_pow_64, two_pow_63] at hx hy hr
      have e : (IntTy.mk 8 true).sub ((IntTy.mk 8 true).sub x y) 1 = x - y - 1 := by
        simp only [IntTy.sub, IntTy.wrap, IntTy.bits, if_true, two_pow_64, two_pow_63]
        omega
      have hnd : ¬ (IntTy.mk 8 true).divUndefined (x - y - 1) y :=
        div_defined_of_ne _ _ _ hy0 (fun h => by
          simp only [IntTy.minVal, IntTy.bits, if_true, two_pow_63] at h
          omega)
      rw [e, IntTy.div, if_neg hnd]
      simp only [Option.some.injEq, IntTy.wrap, IntTy.bits, if_true, two_pow_64, two_pow_63]
      generalize (x - y - 1).tdiv y = q at hle hsg ⊢
      omega
  · rw [if_neg c1, if_neg c1]
    by_cases c2 : x < 0 ∧ y > 0
    · have hr := h2 c2
      have hle := tdiv_abs_le (x - y + 1) y
      have hsg := (tdiv_sign_bounds (x - y + 1) y).2.2.2 (by omega) c2.2
      rw [abs_of_nonpos (show x - y + 1 ≤ 0 by omega), abs_of_nonpos hsg] at hle
      rw [if_pos c2, if_pos c2]
      rcases hs4 with rfl | rfl
      · simp only [two_pow_32, two_pow_31] at hx hy hr
        have e : (IntTy.mk 4 true).add ((IntTy.mk 4 true).sub x y) 1 = x - y + 1 := by
          simp only [IntTy.sub, IntTy.add, IntTy.wrap, IntTy.bits, if_true, two_pow_32,
            two_pow_31]
          omega
        have hnd : ¬ (IntTy.mk 4 true).divUndefined (x - y + 1) y :=
          div_defined_of_ne _ _ _ hy0 (fun h => by omega)
        rw [e, IntTy.div, if_neg hnd]
        simp only [Option.some.injEq, IntTy.wrap, IntTy.bits, if_true, two_pow_32, two_pow_31]
        generalize (x - y + 1).tdiv y = q at hle hsg ⊢
        omega
      · simp only [two_pow_64, two_pow_63] at hx hy hr
        have e : (IntTy.mk 8 true).add ((IntTy.mk 8 true).sub x y) 1 = x - y + 1 := by
          simp only [IntTy.sub, IntTy.add, IntTy.wrap, IntTy.bits, if_true, two_pow_64,
            two_pow_63]
          omega
        have hnd : ¬ (IntTy.mk 8 true).divUndefined (x - y + 1) y :=
          div_defined_of_ne _ _ _ hy0 (fun h => by omega)
        rw [e, IntTy.div, if_neg hnd]
        simp only [Option.some.injEq, IntTy.wrap, IntTy.bits, if_true, two_pow_64, two_pow_63]
        generalize (x - y + 1).tdiv y = q at hle hsg ⊢
        omega
    · rw [if_neg c2, if_neg c2, IntTy.div, if_neg hnd0]
      have hle := tdiv_abs_le x y
      have hsb := tdiv_sign_bounds x y
      have hhalf : 2 ≤ |y| → 2 * |x.tdiv y| ≤ |x| := tdiv_abs_le_half x y
      have hone : y = -1 → x.tdiv y = -x := by
        intro h
        rw [h, Int.tdiv_neg, Int.tdiv_one]
      simp only [Option.some.injEq, IntTy.wrap, IntTy.bits, if_true]
      generalize x.tdiv y = q at hle hsb hhalf hone ⊢
      rcases hs4 with rfl | rfl
      · simp only [two_pow_32, two_pow_31] at hx hy h3 ⊢
        rcases abs_cases x with ⟨hax, _⟩ | ⟨hax, _⟩ <;>
          rcases abs_cases y with ⟨hay, _⟩ | ⟨hay, _⟩ <;>
          rcases abs_cases q with ⟨haq, _⟩ | ⟨haq, _⟩ <;>
          rw [hax, haq] at hle hhalf <;> rw [hay] at hhalf <;> omega
      · simp only [two_pow_64, two_pow_63] at hx hy h3 ⊢
        rcases abs_cases x with ⟨hax, _⟩ | ⟨hax, _⟩ <;>
          rcases abs_cases y with ⟨hay, _⟩ | ⟨hay, _⟩ <;>
          rcases abs_cases q with ⟨haq, _⟩ | ⟨haq, _⟩ <;>
          rw [hax, haq] at hle hhalf <;> rw [hay] at hhalf <;> omega

end Cubits
